import Mathlib

/-!
Verification of the MarkForger conversion core
(`app/services/conversion_service.py`) against its specification.

The embedding below models, faithfully to the Python source:

* the Document Renderer and Conversion Pipeline
  (`ConversionService.convert_markdown_to_html`), with Python strings
  modelled as `List Char` so that `str.replace`, `str.endswith` and
  f-string concatenation can be given their exact Python semantics;
* the Storage Allocator (`ConversionService._create_conversion_dir`);
* the Archiver (`ConversionService.create_zip`), over a tree model of
  the storage root so that `os.walk` is a genuine recursive traversal;
* the Retention Sweeper (`ConversionService.cleanup_old_conversions`),
  over a flat model of the top-level entries of the storage root, with
  deletion failures (exceptions) made explicit via `Except`.

Filesystem writes are modelled as association-list updates; an
exception raised by the Python code is modelled as `Except.error`.
-/

namespace MarkForger

/-! ## Python string primitives

Python `str` is a sequence of code points; we model it as `List Char`.
`pyReplace s pat rep` is Python's `s.replace(pat, rep)`: it scans `s`
left to right and replaces every non-overlapping occurrence of `pat`.
The auxiliary function is driven by a fuel argument equal to the length
of `s` so that the recursion is structural (each step consumes at least
one character of `s`).  The `pat = []` case never arises in this
development (the only pattern used is `".md"`).
-/

def pyReplaceAux (pat rep : List Char) : Nat → List Char → List Char
  | _, [] => []
  | 0, s => s
  | f + 1, c :: rest =>
    if pat.isPrefixOf (c :: rest) && !pat.isEmpty then
      rep ++ pyReplaceAux pat rep f ((c :: rest).drop pat.length)
    else
      c :: pyReplaceAux pat rep f rest

def pyReplace (s pat rep : List Char) : List Char :=
  pyReplaceAux pat rep s.length s

/-- Python `s.endswith(suffix)`. -/
def pyEndsWith (s suffix : List Char) : Bool :=
  suffix.isSuffixOf s

def mdExt : List Char := ".md".toList

def htmlExtL : List Char := ".html".toList

/-! ## Flat model of a conversion directory

`convert_markdown_to_html` only ever writes files at paths relative to
the freshly allocated conversion directory (`css/style.css`,
`<name>.md`, `<name>.html`), so its effect on that directory is modelled
as an association list from relative path to file content.  `writeFile`
is Python's `open(path, "w").write(content)`: it truncates an existing
file or creates a new one.
-/

abbrev FileMap : Type := List (List Char × List Char)

def writeFile (fs : FileMap) (name content : List Char) : FileMap :=
  if fs.any (fun p => p.1 == name) then
    fs.map (fun p => if p.1 == name then (name, content) else p)
  else
    fs ++ [(name, content)]

def lookupFile (fs : FileMap) (name : List Char) : Option (List Char) :=
  match fs.find? (fun p => p.1 == name) with
  | some p => some p.2
  | none => none

/-! ## The Document Renderer and Conversion Pipeline

Transcription of `convert_markdown_to_html` (lines 136-195 of the
source).  The external `markdown.markdown(...)` rendering call is kept
abstract as a parameter `render : List Char → List Char`; everything
else is from the source.
-/

/-- `if not filename.endswith('.md'): filename = f"{filename}.md"`. -/
def normalizeFilename (filename : List Char) : List Char :=
  if pyEndsWith filename mdExt then filename else filename ++ mdExt

def cssName : List Char := "css/style.css".toList

/-- The body of the stylesheet written by `_create_base_css`
(braces are escaped as `\x7b`/`\x7d`). -/
def cssContent : List Char := ("
/* Base styles for MD to HTML conversion */
body \x7b
    font-family: -apple-system, BlinkMacSystemFont, \"Segoe UI\", Roboto, Helvetica, Arial, sans-serif;
    line-height: 1.6;
    color: #333;
    max-width: 800px;
    margin: 0 auto;
    padding: 20px;
\x7d

h1, h2, h3, h4, h5, h6 \x7b
    margin-top: 1.5em;
    margin-bottom: 0.5em;
    font-weight: 600;
\x7d

h1 \x7b font-size: 2em; \x7d
h2 \x7b font-size: 1.75em; \x7d
h3 \x7b font-size: 1.5em; \x7d
h4 \x7b font-size: 1.25em; \x7d
h5 \x7b font-size: 1em; \x7d
h6 \x7b font-size: 0.85em; \x7d

p \x7b
    margin: 1em 0;
\x7d

a \x7b
    color: #0366d6;
    text-decoration: none;
\x7d

a:hover \x7b
    text-decoration: underline;
\x7d

code \x7b
    font-family: SFMono-Regular, Consolas, \"Liberation Mono\", Menlo, monospace;
    background-color: #f6f8fa;
    padding: 0.2em 0.4em;
    border-radius: 3px;
    font-size: 85%;
\x7d

pre \x7b
    background-color: #f6f8fa;
    border-radius: 3px;
    padding: 16px;
    overflow: auto;
\x7d

pre code \x7b
    background-color: transparent;
    padding: 0;
\x7d

blockquote \x7b
    padding: 0 1em;
    color: #6a737d;
    border-left: 0.25em solid #dfe2e5;
    margin: 1em 0;
\x7d

ul, ol \x7b
    padding-left: 2em;
    margin: 1em 0;
\x7d

img \x7b
    max-width: 100%;
    height: auto;
\x7d

table \x7b
    border-collapse: collapse;
    width: 100%;
    margin: 1em 0;
\x7d

table th, table td \x7b
    border: 1px solid #dfe2e5;
    padding: 6px 13px;
\x7d

table th \x7b
    background-color: #f6f8fa;
    font-weight: 600;
\x7d

hr \x7b
    height: 0.25em;
    padding: 0;
    margin: 24px 0;
    background-color: #e1e4e8;
    border: 0;
\x7d
            ").toList

/-- The f-string template written to the `.html` file, split at its two
interpolation points `{html_filename}` and `{html_content}`. -/
def htmlT1 : List Char :=
  ("<!DOCTYPE html>\n<html lang=\"en\">\n<head>\n    <meta charset=\"UTF-8\">\n    <meta name=\"viewport\" content=\"width=device-width, initial-scale=1.0\">\n    <title>").toList

def htmlT2 : List Char :=
  ("</title>\n    <link rel=\"stylesheet\" href=\"css/style.css\">\n</head>\n<body>\n    ").toList

def htmlT3 : List Char := ("\n</body>\n</html>").toList

def htmlTemplate (html_filename html_content : List Char) : List Char :=
  htmlT1 ++ html_filename ++ htmlT2 ++ html_content ++ htmlT3

/-- One iteration of the `for filename, md_content in content.items()`
loop: normalize the filename, write the raw markdown, render, derive the
HTML filename with `filename.replace('.md', '.html')`, and write the
wrapped HTML document. -/
def processDocument (render : List Char → List Char) (fs : FileMap)
    (filename md_content : List Char) : FileMap :=
  let fn := normalizeFilename filename
  let fs1 := writeFile fs fn md_content
  let html_content := render md_content
  let html_filename := pyReplace fn mdExt htmlExtL
  writeFile fs1 html_filename (htmlTemplate html_filename html_content)

/-- `convert_markdown_to_html`, as its effect on the contents of the
freshly created conversion directory.  `content` is the input dict in
insertion order (Python dicts iterate in insertion order); keys are
distinct since it is a dict. -/
def convert_markdown_to_html (render : List Char → List Char)
    (content : List (List Char × List Char)) : FileMap :=
  content.foldl (fun fs kv => processDocument render fs kv.1 kv.2)
    (writeFile [] cssName cssContent)

/-! ## The Storage Allocator -/

/-- A calendar timestamp as produced by `datetime.now()`. -/
structure PyDateTime where
  year : Nat
  month : Nat
  day : Nat
  hour : Nat
  minute : Nat
  second : Nat

/-- The ranges `datetime` guarantees for its fields. -/
def validDT (dt : PyDateTime) : Prop :=
  1000 ≤ dt.year ∧ dt.year ≤ 9999 ∧ 1 ≤ dt.month ∧ dt.month ≤ 12 ∧
    1 ≤ dt.day ∧ dt.day ≤ 31 ∧ dt.hour ≤ 23 ∧ dt.minute ≤ 59 ∧ dt.second ≤ 59

instance (dt : PyDateTime) : Decidable (validDT dt) := by
  unfold validDT; infer_instance

def digitChar (n : Nat) : Char := Char.ofNat (48 + n)

/-- Fixed-width zero-padded decimal rendering; agrees with `strftime`
field formatting on the valid ranges above. -/
def padNum (w n : Nat) : List Char :=
  (List.range w).map (fun i => digitChar (n / 10 ^ (w - 1 - i) % 10))

/-- `datetime.now().strftime("%Y%m%d%H%M%S")`. -/
def strftimeTimestamp (dt : PyDateTime) : List Char :=
  padNum 4 dt.year ++ padNum 2 dt.month ++ padNum 2 dt.day ++
    padNum 2 dt.hour ++ padNum 2 dt.minute ++ padNum 2 dt.second

def hexChar (n : Nat) : Char :=
  if n < 10 then Char.ofNat (48 + n) else Char.ofNat (87 + n)

/-- `uuid.uuid4().hex`: the 32-character lowercase hexadecimal rendering
of the 128-bit value `u`. -/
def uuidHex (u : Nat) : List Char :=
  (List.range 32).map (fun i => hexChar (u / 16 ^ (31 - i) % 16))

/-- Python truthiness of the `user_id: Optional[str]` argument:
`None` and the empty string are falsy. -/
def pyTruthy : Option (List Char) → Bool
  | none => false
  | some s => !s.isEmpty

/-- `_create_conversion_dir` (lines 17-27), as the generated directory
name; `u` is the random 128-bit value drawn by `uuid.uuid4()`. -/
def create_conversion_dir (user_id : Option (List Char)) (dt : PyDateTime)
    (u : Nat) : List Char :=
  let timestamp := strftimeTimestamp dt
  if pyTruthy user_id then
    (user_id.getD []) ++ '_' :: timestamp ++ '_' :: (uuidHex u).take 8
  else
    "anonymous".toList ++ '_' :: timestamp ++ '_' :: (uuidHex u).take 8

/-! ## `get_preview_url` (lines 213-216) -/

def get_preview_url (conversion_id : List Char) : List Char :=
  "/preview/".toList ++ conversion_id

/-! ## Spec-side descriptions of the renderer output

These definitions follow the specification's words ("every Document has
exactly one `.md` file and one `.html` file with the same base name",
"the HTML filename is the markdown filename with its markdown extension
replaced by an HTML extension") and are to be compared with the
source-side `convert_markdown_to_html`. -/

/-- The base name of a normalized markdown filename: everything before
the final `.md`. -/
def stemOf (n : List Char) : List Char := n.take (n.length - 3)

/-- `".md"` occurs in `b ++ ".md"` only as the final extension: no
occurrence of the pattern starts inside `b`.  (Occurrences cannot span
the boundary, so this says the appended one is the only one.) -/
def onlyFinalMd (b : List Char) : Prop :=
  ∀ i < b.length, mdExt.isPrefixOf ((b ++ mdExt).drop i) = false

instance (b : List Char) : Decidable (onlyFinalMd b) :=
  Nat.decidableBallLT _ _

/-- The document files the specification promises for an input mapping:
for each entry, one `.md` file holding the raw markdown and one `.html`
file with the same base name holding the wrapped rendered document. -/
def specSiteFiles (render : List Char → List Char) :
    List (List Char × List Char) → FileMap
  | [] => []
  | kv :: rest =>
    (normalizeFilename kv.1, kv.2) ::
      (stemOf (normalizeFilename kv.1) ++ htmlExtL,
        htmlTemplate (stemOf (normalizeFilename kv.1) ++ htmlExtL) (render kv.2)) ::
      specSiteFiles render rest

/-- Spec-side tags C7 requires of the wrapped HTML document. -/
def charsetMeta : List Char := "<meta charset=\"UTF-8\">".toList

def viewportMeta : List Char :=
  "<meta name=\"viewport\" content=\"width=device-width, initial-scale=1.0\">".toList

def cssLinkTag : List Char :=
  "<link rel=\"stylesheet\" href=\"css/style.css\">".toList

def titleOpen : List Char := "<title>".toList

def titleClose : List Char := "</title>".toList

/-! ## Tree model of the storage root, for the Archiver

`create_zip` (lines 197-211) resolves `storageRoot/conversionID`,
raises `FileNotFoundError` when it does not exist, and otherwise
`os.walk`s the directory, writing every regular file into the archive
under its path relative to the conversion root.  The storage root is a
list of named nodes; a node is a regular file, an archive (a regular
file whose payload we keep structured as its entry list), or a
directory. -/

mutual
inductive FNode : Type where
  | file : String → FNode
  | zipf : List (List String) → FNode
  | dir : FEntries → FNode
inductive FEntries : Type where
  | nil : FEntries
  | cons : String → FNode → FEntries → FEntries
end

def isDirNode : FNode → Bool
  | FNode.file _ => false
  | FNode.zipf _ => false
  | FNode.dir _ => true

/-! `walkFiles` is `os.walk(conversion_path)` with
`arcname = os.path.relpath(...)`: the relative paths (as component
lists) of the regular files below a node, root files first, then each
subdirectory's subtree in listing order.  `os.walk` on a non-directory
path yields nothing. -/

mutual
def walkFiles : FNode → List (List String)
  | FNode.file _ => []
  | FNode.zipf _ => []
  | FNode.dir ch => walkTop ch ++ walkRec ch
def walkTop : FEntries → List (List String)
  | FEntries.nil => []
  | FEntries.cons n nd rest =>
    (if isDirNode nd then [] else [[n]]) ++ walkTop rest
def walkRec : FEntries → List (List String)
  | FEntries.nil => []
  | FEntries.cons n nd rest =>
    (walkFiles nd).map (fun p => n :: p) ++ walkRec rest
end

def lookupFE : FEntries → String → Option FNode
  | FEntries.nil, _ => none
  | FEntries.cons m nd rest, n => if m == n then some nd else lookupFE rest n

/-- Create or overwrite the top-level entry `n`. -/
def setFE : FEntries → String → FNode → FEntries
  | FEntries.nil, n, x => FEntries.cons n x FEntries.nil
  | FEntries.cons m nd rest, n, x =>
    if m == n then FEntries.cons m x rest else FEntries.cons m nd (setFE rest n x)

/-- `create_zip` (lines 197-211): returns the raised error or the zip
path, paired with the resulting storage root.  The `os.path.exists`
check fails exactly when no top-level entry is named `conversion_id`;
on success the archive is written at the sibling path
`<conversion_id>.zip` with the walked entry list as payload. -/
def create_zip (root : FEntries) (conversion_id : String) :
    Except String String × FEntries :=
  match lookupFE root conversion_id with
  | none =>
    (Except.error ("Conversion " ++ conversion_id ++ " not found"), root)
  | some node =>
    (Except.ok (conversion_id ++ ".zip"),
      setFE root (conversion_id ++ ".zip") (FNode.zipf (walkFiles node)))

/-! Spec-side: `isRegFile nd p` says `p` is the relative path of a
regular file in the tree rooted at `nd` (archives are regular files on
disk). -/

mutual
def isRegFile : FNode → List String → Bool
  | FNode.file _, [] => true
  | FNode.zipf _, [] => true
  | FNode.dir _, [] => false
  | FNode.dir ch, n :: p => isRegFileIn ch n p
  | FNode.file _, _ :: _ => false
  | FNode.zipf _, _ :: _ => false
def isRegFileIn : FEntries → String → List String → Bool
  | FEntries.nil, _, _ => false
  | FEntries.cons m nd rest, n, p =>
    (m == n && isRegFile nd p) || isRegFileIn rest n p
end

/-! ## Flat model of the storage root, for the Retention Sweeper

`cleanup_old_conversions` (lines 218-236) only inspects the top-level
entries of the storage root: their names, whether they are directories,
and their modification times.  `os.listdir` is a snapshot taken before
any deletion.  `shutil.rmtree` and `os.remove` may raise; a raised
exception propagates out of the loop, which we model with
`Except.error` carrying the offending path.  `removeFails` says which
paths the filesystem refuses to delete. -/

structure DirEntry where
  name : List Char
  isDir : Bool
  mtime : Int
deriving DecidableEq

def zipExt : List Char := ".zip".toList

def findEntry (fs : List DirEntry) (n : List Char) : Option DirEntry :=
  fs.find? (fun e => e.name == n)

def removeEntry (fs : List DirEntry) (n : List Char) : List DirEntry :=
  fs.filter (fun e => e.name != n)

/-- The `for item in os.listdir(...)` loop of `cleanup_old_conversions`,
iterating over the listing snapshot and threading the storage state and
the `removed_dirs` accumulator.  `os.remove` on a directory raises
(`IsADirectoryError`), which the model reports like any other deletion
failure. -/
def sweepLoop (removeFails : List Char → Bool) (cutoff : Int) :
    List (List Char) → List DirEntry → List (List Char) →
    Except (List Char) (List (List Char) × List DirEntry)
  | [], fs, removed => Except.ok (removed, fs)
  | item :: rest, fs, removed =>
    match findEntry fs item with
    | none => sweepLoop removeFails cutoff rest fs removed
    | some e =>
      if e.isDir then
        if e.mtime < cutoff then
          if removeFails item then Except.error item
          else
            let fs1 := removeEntry fs item
            let removed1 := removed ++ [item]
            let zipName := item ++ zipExt
            match findEntry fs1 zipName with
            | some z =>
              if z.isDir then Except.error zipName
              else if removeFails zipName then Except.error zipName
              else sweepLoop removeFails cutoff rest (removeEntry fs1 zipName) removed1
            | none => sweepLoop removeFails cutoff rest fs1 removed1
        else sweepLoop removeFails cutoff rest fs removed
      else sweepLoop removeFails cutoff rest fs removed

/-- `cleanup_old_conversions` (lines 218-236). `now` is
`datetime.now().timestamp()` in seconds. -/
def cleanup_old_conversions (removeFails : List Char → Bool)
    (fs : List DirEntry) (now : Int) (days_to_keep : Nat) :
    Except (List Char) (List (List Char) × List DirEntry) :=
  let cutoff_time : Int := now - (days_to_keep * 24 * 60 * 60 : Nat)
  sweepLoop removeFails cutoff_time (fs.map DirEntry.name) fs []

/-- Spec-side: the entry is a directory whose last-modified time is
strictly before the cutoff. -/
def staleDir (cutoff : Int) (e : DirEntry) : Prop :=
  e.isDir = true ∧ e.mtime < cutoff

instance (cutoff : Int) (e : DirEntry) : Decidable (staleDir cutoff e) := by
  unfold staleDir; infer_instance

/-- Decidable form of "the listing snapshot name `n` currently denotes a
stale directory". -/
def staleInB (cutoff : Int) (fs : List DirEntry) (n : List Char) : Bool :=
  match findEntry fs n with
  | some e => e.isDir && decide (e.mtime < cutoff)
  | none => false

/-! ## Lemmas about the renderer's filename arithmetic -/

theorem writeFile_of_fresh (fs : FileMap) (name content : List Char)
    (h : name ∉ fs.map Prod.fst) : writeFile fs name content = fs ++ [(name, content)] := by
  have hany : fs.any (fun p => p.1 == name) = false := by
    rw [List.any_eq_false]
    intro p hp hbeq
    exact h ((beq_iff_eq.mp hbeq) ▸ List.mem_map_of_mem Prod.fst hp)
  unfold writeFile
  rw [hany]
  simp

theorem mdExt_suffix_normalize (f : List Char) : mdExt <:+ normalizeFilename f := by
  unfold normalizeFilename pyEndsWith
  split
  · exact List.isSuffixOf_iff_suffix.mp (by assumption)
  · exact List.suffix_append f mdExt

theorem stem_append_mdExt {n : List Char} (h : mdExt <:+ n) : stemOf n ++ mdExt = n := by
  obtain ⟨t, rfl⟩ := h
  unfold stemOf
  have h3 : mdExt.length = 3 := rfl
  have hl : (t ++ mdExt).length - 3 = t.length := by
    rw [List.length_append, h3]
    omega
  rw [hl, List.take_left]

theorem stem_inj {n1 n2 : List Char} (h1 : mdExt <:+ n1) (h2 : mdExt <:+ n2)
    (h : stemOf n1 = stemOf n2) : n1 = n2 := by
  rw [← stem_append_mdExt h1, ← stem_append_mdExt h2, h]

theorem append_ne_of_getLast_ne {e1 e2 : List Char} (a b : List Char)
    (h1 : e1 ≠ []) (h2 : e2 ≠ []) (hne : e1.getLast? ≠ e2.getLast?) :
    a ++ e1 ≠ b ++ e2 := by
  intro h
  apply hne
  rw [← List.getLast?_append_of_ne_nil a h1, h, List.getLast?_append_of_ne_nil b h2]

theorem md_ne_html (a b : List Char) : a ++ mdExt ≠ b ++ htmlExtL :=
  append_ne_of_getLast_ne a b (by decide) (by decide) (by decide)

theorem md_ne_css (a : List Char) : a ++ mdExt ≠ cssName := by
  intro h
  have hlast := congrArg List.getLast? h
  rw [List.getLast?_append_of_ne_nil a (by decide)] at hlast
  exact absurd hlast (by decide)

theorem html_ne_css (a : List Char) : a ++ htmlExtL ≠ cssName := by
  intro h
  have hlast := congrArg List.getLast? h
  rw [List.getLast?_append_of_ne_nil a (by decide)] at hlast
  exact absurd hlast (by decide)

theorem pyReplace_only_final (b rep : List Char) (hb : onlyFinalMd b) :
    pyReplace (b ++ mdExt) mdExt rep = b ++ rep := by
  induction b with
  | nil =>
    show pyReplace ([] ++ mdExt) mdExt rep = [] ++ rep
    simp [pyReplace, pyReplaceAux, mdExt]
  | cons c b ih =>
    have h0 : mdExt.isPrefixOf (c :: (b ++ mdExt)) = false := by
      have h := hb 0 (by simp)
      simpa using h
    have hb' : onlyFinalMd b := by
      intro i hi
      have h := hb (i + 1) (by simpa using Nat.succ_lt_succ hi)
      simpa [List.drop_succ_cons] using h
    show pyReplaceAux mdExt rep ((c :: b ++ mdExt).length) (c :: b ++ mdExt) = c :: b ++ rep
    rw [List.cons_append, List.length_cons]
    rw [pyReplaceAux, h0]
    simpa [pyReplace, List.length_append] using ih hb'

theorem pyReplace_normalized {n : List Char} (hsuf : mdExt <:+ n)
    (hgood : onlyFinalMd (stemOf n)) :
    pyReplace n mdExt htmlExtL = stemOf n ++ htmlExtL := by
  have h := pyReplace_only_final (stemOf n) htmlExtL hgood
  rw [stem_append_mdExt hsuf] at h
  exact h

/-! ## The conversion loop produces exactly the spec-side file list -/

theorem processDocument_eq (render : List Char → List Char) (fs : FileMap)
    (k v : List Char)
    (hgood : onlyFinalMd (stemOf (normalizeFilename k)))
    (hmd : normalizeFilename k ∉ fs.map Prod.fst)
    (hhtml : stemOf (normalizeFilename k) ++ htmlExtL ∉ fs.map Prod.fst) :
    processDocument render fs k v =
      fs ++ [(normalizeFilename k, v),
        (stemOf (normalizeFilename k) ++ htmlExtL,
          htmlTemplate (stemOf (normalizeFilename k) ++ htmlExtL) (render v))] := by
  have hsuf := mdExt_suffix_normalize k
  have hfresh2 : stemOf (normalizeFilename k) ++ htmlExtL ∉
      (fs ++ [(normalizeFilename k, v)]).map Prod.fst := by
    intro hmem
    rw [List.map_append] at hmem
    rcases List.mem_append.mp hmem with h1 | h2
    · exact hhtml h1
    · simp only [List.map_cons, List.map_nil] at h2
      rcases List.mem_cons.mp h2 with heq | h3
      · exact md_ne_html (stemOf (normalizeFilename k)) (stemOf (normalizeFilename k))
          ((stem_append_mdExt hsuf).symm ▸ heq.symm)
      · exact absurd h3 (List.not_mem_nil _)
  simp only [processDocument]
  rw [writeFile_of_fresh fs _ v hmd, pyReplace_normalized hsuf hgood,
    writeFile_of_fresh _ _ _ hfresh2, List.append_assoc]
  rfl

theorem convert_loop (render : List Char → List Char) :
    ∀ (content : List (List Char × List Char)) (fs : FileMap),
      ((content.map fun kv => normalizeFilename kv.1).Nodup) →
      (∀ kv ∈ content, onlyFinalMd (stemOf (normalizeFilename kv.1))) →
      (∀ kv ∈ content, normalizeFilename kv.1 ∉ fs.map Prod.fst ∧
        stemOf (normalizeFilename kv.1) ++ htmlExtL ∉ fs.map Prod.fst) →
      content.foldl (fun fs kv => processDocument render fs kv.1 kv.2) fs =
        fs ++ specSiteFiles render content := by
  intro content
  induction content with
  | nil =>
    intro fs _ _ _
    simp [specSiteFiles]
  | cons kv rest ih =>
    intro fs hnd hgood hdisj
    have hmem0 : kv ∈ kv :: rest := List.mem_cons_self kv rest
    have hsuf : mdExt <:+ normalizeFilename kv.1 := mdExt_suffix_normalize kv.1
    have hstep := processDocument_eq render fs kv.1 kv.2 (hgood kv hmem0)
      (hdisj kv hmem0).1 (hdisj kv hmem0).2
    rw [List.foldl_cons, hstep]
    have hnotn : normalizeFilename kv.1 ∉
        rest.map fun kv' => normalizeFilename kv'.1 := (List.nodup_cons.mp hnd).1
    have hnd' : (rest.map fun kv' => normalizeFilename kv'.1).Nodup :=
      (List.nodup_cons.mp hnd).2
    have hgood' : ∀ kv' ∈ rest, onlyFinalMd (stemOf (normalizeFilename kv'.1)) :=
      fun kv' h => hgood kv' (List.mem_cons_of_mem _ h)
    have hdisj' : ∀ kv' ∈ rest,
        normalizeFilename kv'.1 ∉
          (fs ++ [(normalizeFilename kv.1, kv.2),
            (stemOf (normalizeFilename kv.1) ++ htmlExtL,
              htmlTemplate (stemOf (normalizeFilename kv.1) ++ htmlExtL)
                (render kv.2))]).map Prod.fst ∧
        stemOf (normalizeFilename kv'.1) ++ htmlExtL ∉
          (fs ++ [(normalizeFilename kv.1, kv.2),
            (stemOf (normalizeFilename kv.1) ++ htmlExtL,
              htmlTemplate (stemOf (normalizeFilename kv.1) ++ htmlExtL)
                (render kv.2))]).map Prod.fst := by
      intro kv' hkv'
      have hd := hdisj kv' (List.mem_cons_of_mem _ hkv')
      have hsuf' : mdExt <:+ normalizeFilename kv'.1 := mdExt_suffix_normalize kv'.1
      have hnn : normalizeFilename kv'.1 ≠ normalizeFilename kv.1 := by
        intro h
        exact hnotn (h ▸ List.mem_map_of_mem (fun kv' => normalizeFilename kv'.1) hkv')
      constructor
      · intro hmem
        rw [List.map_append] at hmem
        rcases List.mem_append.mp hmem with h1 | h2
        · exact hd.1 h1
        · simp only [List.map_cons, List.map_nil] at h2
          rcases List.mem_cons.mp h2 with heq | h3
          · exact hnn heq
          · rcases List.mem_cons.mp h3 with heq | h4
            · exact md_ne_html (stemOf (normalizeFilename kv'.1))
                (stemOf (normalizeFilename kv.1))
                ((stem_append_mdExt hsuf').symm ▸ heq)
            · exact absurd h4 (List.not_mem_nil _)
      · intro hmem
        rw [List.map_append] at hmem
        rcases List.mem_append.mp hmem with h1 | h2
        · exact hd.2 h1
        · simp only [List.map_cons, List.map_nil] at h2
          rcases List.mem_cons.mp h2 with heq | h3
          · exact md_ne_html (stemOf (normalizeFilename kv.1))
              (stemOf (normalizeFilename kv'.1))
              ((stem_append_mdExt hsuf).symm ▸ heq.symm)
          · rcases List.mem_cons.mp h3 with heq | h4
            · have hstemEq : stemOf (normalizeFilename kv'.1) = stemOf (normalizeFilename kv.1) :=
                List.append_cancel_right heq
              exact hnn (stem_inj hsuf' hsuf hstemEq)
            · exact absurd h4 (List.not_mem_nil _)
    rw [ih _ hnd' hgood' hdisj', specSiteFiles, List.append_assoc]
    rfl

theorem convert_eq_spec (render : List Char → List Char)
    (content : List (List Char × List Char))
    (hnd : (content.map fun kv => normalizeFilename kv.1).Nodup)
    (hgood : ∀ kv ∈ content, onlyFinalMd (stemOf (normalizeFilename kv.1))) :
    convert_markdown_to_html render content =
      (cssName, cssContent) :: specSiteFiles render content := by
  unfold convert_markdown_to_html
  have hinit : writeFile [] cssName cssContent = [(cssName, cssContent)] := rfl
  rw [hinit, convert_loop render content [(cssName, cssContent)] hnd hgood ?_]
  · rfl
  · intro kv hkv
    have hsuf := mdExt_suffix_normalize kv.1
    constructor
    · simp only [List.map_cons, List.map_nil, List.mem_singleton]
      intro h
      exact md_ne_css (stemOf (normalizeFilename kv.1)) ((stem_append_mdExt hsuf).symm ▸ h)
    · simp only [List.map_cons, List.map_nil, List.mem_singleton]
      intro h
      exact html_ne_css (stemOf (normalizeFilename kv.1)) h

/-! ## The produced file names are pairwise distinct -/

theorem mem_specSiteFiles_names (render : List Char → List Char)
    (content : List (List Char × List Char)) (x : List Char) :
    x ∈ (specSiteFiles render content).map Prod.fst ↔
      ∃ kv ∈ content, x = normalizeFilename kv.1 ∨
        x = stemOf (normalizeFilename kv.1) ++ htmlExtL := by
  induction content with
  | nil => simp [specSiteFiles]
  | cons kv rest ih =>
    simp only [specSiteFiles, List.map_cons, List.mem_cons, ih]
    constructor
    · rintro (h | h | ⟨kv', hkv', hc⟩)
      · exact ⟨kv, Or.inl rfl, Or.inl h⟩
      · exact ⟨kv, Or.inl rfl, Or.inr h⟩
      · exact ⟨kv', Or.inr hkv', hc⟩
    · rintro ⟨kv', hkv', hc⟩
      rcases hkv' with rfl | hkv''
      · rcases hc with h | h
        · exact Or.inl h
        · exact Or.inr (Or.inl h)
      · exact Or.inr (Or.inr ⟨kv', hkv'', hc⟩)

theorem specSiteFiles_names_nodup (render : List Char → List Char) :
    ∀ content : List (List Char × List Char),
      ((content.map fun kv => normalizeFilename kv.1).Nodup) →
      ((specSiteFiles render content).map Prod.fst).Nodup := by
  intro content
  induction content with
  | nil => simp [specSiteFiles]
  | cons kv rest ih =>
    intro hnd
    obtain ⟨hnotn, hnd'⟩ := List.nodup_cons.mp hnd
    have hsuf : mdExt <:+ normalizeFilename kv.1 := mdExt_suffix_normalize kv.1
    simp only [specSiteFiles, List.map_cons]
    rw [List.nodup_cons, List.nodup_cons]
    refine ⟨?_, ?_, ih hnd'⟩
    · intro hmem
      rcases List.mem_cons.mp hmem with heq | hmem'
      · exact md_ne_html (stemOf (normalizeFilename kv.1)) (stemOf (normalizeFilename kv.1))
          ((stem_append_mdExt hsuf).symm ▸ heq)
      · rw [mem_specSiteFiles_names] at hmem'
        obtain ⟨kv', hkv', hc⟩ := hmem'
        have hsuf' : mdExt <:+ normalizeFilename kv'.1 := mdExt_suffix_normalize kv'.1
        rcases hc with heq | heq
        · apply hnotn
          show normalizeFilename kv.1 ∈ List.map (fun kv => normalizeFilename kv.1) rest
          rw [heq]
          exact List.mem_map_of_mem (fun kv' => normalizeFilename kv'.1) hkv'
        · exact md_ne_html (stemOf (normalizeFilename kv.1)) (stemOf (normalizeFilename kv'.1))
            ((stem_append_mdExt hsuf).symm ▸ heq)
    · intro hmem
      rw [mem_specSiteFiles_names] at hmem
      obtain ⟨kv', hkv', hc⟩ := hmem
      have hsuf' : mdExt <:+ normalizeFilename kv'.1 := mdExt_suffix_normalize kv'.1
      rcases hc with heq | heq
      · exact md_ne_html (stemOf (normalizeFilename kv'.1)) (stemOf (normalizeFilename kv.1))
          ((stem_append_mdExt hsuf').symm ▸ heq.symm)
      · have hstemEq : stemOf (normalizeFilename kv.1) = stemOf (normalizeFilename kv'.1) :=
          List.append_cancel_right heq
        apply hnotn
        show normalizeFilename kv.1 ∈ List.map (fun kv => normalizeFilename kv.1) rest
        rw [stem_inj hsuf hsuf' hstemEq]
        exact List.mem_map_of_mem (fun kv' => normalizeFilename kv'.1) hkv'

theorem convert_names_nodup (render : List Char → List Char)
    (content : List (List Char × List Char))
    (hnd : (content.map fun kv => normalizeFilename kv.1).Nodup)
    (hgood : ∀ kv ∈ content, onlyFinalMd (stemOf (normalizeFilename kv.1))) :
    ((convert_markdown_to_html render content).map Prod.fst).Nodup := by
  rw [convert_eq_spec render content hnd hgood, List.map_cons, List.nodup_cons]
  refine ⟨?_, specSiteFiles_names_nodup render content hnd⟩
  intro hmem
  rw [mem_specSiteFiles_names] at hmem
  obtain ⟨kv', hkv', hc⟩ := hmem
  have hsuf' : mdExt <:+ normalizeFilename kv'.1 := mdExt_suffix_normalize kv'.1
  rcases hc with heq | heq
  · exact md_ne_css (stemOf (normalizeFilename kv'.1))
      ((stem_append_mdExt hsuf').symm ▸ heq.symm)
  · exact html_ne_css (stemOf (normalizeFilename kv'.1)) heq.symm

/-! ## Looking files up in the produced directory -/

theorem lookupFile_of_mem_nodup : ∀ (fs : FileMap) (n v : List Char),
    (fs.map Prod.fst).Nodup → (n, v) ∈ fs → lookupFile fs n = some v := by
  intro fs
  induction fs with
  | nil => intro n v _ h; exact absurd h (List.not_mem_nil _)
  | cons p fs ih =>
    intro n v hnd hmem
    rw [List.map_cons] at hnd
    obtain ⟨hp, hnd'⟩ := List.nodup_cons.mp hnd
    rcases List.mem_cons.mp hmem with heq | hmem'
    · subst heq
      unfold lookupFile
      rw [List.find?_cons_of_pos _ (by simp)]
    · have hne : p.1 ≠ n := by
        intro h
        apply hp
        rw [h]
        have : (n, v).1 ∈ fs.map Prod.fst := List.mem_map_of_mem Prod.fst hmem'
        exact this
      unfold lookupFile
      rw [List.find?_cons_of_neg _ (by simp [hne])]
      exact ih n v hnd' hmem'

theorem mem_spec_md (render : List Char → List Char) :
    ∀ (content : List (List Char × List Char)) (k v : List Char), (k, v) ∈ content →
      (normalizeFilename k, v) ∈ specSiteFiles render content := by
  intro content
  induction content with
  | nil => intro k v h; exact absurd h (List.not_mem_nil _)
  | cons kv rest ih =>
    intro k v h
    rcases List.mem_cons.mp h with heq | h'
    · rw [← heq]
      exact List.mem_cons_self _ _
    · exact List.mem_cons_of_mem _ (List.mem_cons_of_mem _ (ih k v h'))

theorem mem_spec_html (render : List Char → List Char) :
    ∀ (content : List (List Char × List Char)) (k v : List Char), (k, v) ∈ content →
      (stemOf (normalizeFilename k) ++ htmlExtL,
        htmlTemplate (stemOf (normalizeFilename k) ++ htmlExtL) (render v)) ∈
        specSiteFiles render content := by
  intro content
  induction content with
  | nil => intro k v h; exact absurd h (List.not_mem_nil _)
  | cons kv rest ih =>
    intro k v h
    rcases List.mem_cons.mp h with heq | h'
    · rw [← heq]
      exact List.mem_cons_of_mem _ (List.mem_cons_self _ _)
    · exact List.mem_cons_of_mem _ (List.mem_cons_of_mem _ (ih k v h'))

theorem lookup_convert_md (render : List Char → List Char)
    (content : List (List Char × List Char)) (k v : List Char)
    (hnd : (content.map fun kv => normalizeFilename kv.1).Nodup)
    (hgood : ∀ kv ∈ content, onlyFinalMd (stemOf (normalizeFilename kv.1)))
    (hmem : (k, v) ∈ content) :
    lookupFile (convert_markdown_to_html render content) (normalizeFilename k) = some v := by
  apply lookupFile_of_mem_nodup _ _ _ (convert_names_nodup render content hnd hgood)
  rw [convert_eq_spec render content hnd hgood]
  exact List.mem_cons_of_mem _ (mem_spec_md render content k v hmem)

theorem lookup_convert_html (render : List Char → List Char)
    (content : List (List Char × List Char)) (k v : List Char)
    (hnd : (content.map fun kv => normalizeFilename kv.1).Nodup)
    (hgood : ∀ kv ∈ content, onlyFinalMd (stemOf (normalizeFilename kv.1)))
    (hmem : (k, v) ∈ content) :
    lookupFile (convert_markdown_to_html render content)
        (stemOf (normalizeFilename k) ++ htmlExtL) =
      some (htmlTemplate (stemOf (normalizeFilename k) ++ htmlExtL) (render v)) := by
  apply lookupFile_of_mem_nodup _ _ _ (convert_names_nodup render content hnd hgood)
  rw [convert_eq_spec render content hnd hgood]
  exact List.mem_cons_of_mem _ (mem_spec_html render content k v hmem)

theorem specSiteFiles_names (render : List Char → List Char) :
    ∀ content : List (List Char × List Char),
      (specSiteFiles render content).map Prod.fst =
        content.flatMap (fun kv =>
          [normalizeFilename kv.1, stemOf (normalizeFilename kv.1) ++ htmlExtL]) := by
  intro content
  induction content with
  | nil => rfl
  | cons kv rest ih => simp [specSiteFiles, ih]

/-! ## Claim C1 -/

/-- C1 as stated is false on the code: `filename.replace('.md', '.html')`
replaces every occurrence of `.md`, not just the final extension.  For
the input key `"notes.mdx"` the markdown file is `notes.mdx.md`, so the
claim demands the sibling `notes.mdx.html`; the code instead produces
`notes.htmlx.html`, whose base name `notes.htmlx` differs from the
markdown file's base name `notes.mdx`. -/
theorem c1_counterexample :
    (convert_markdown_to_html (fun s => s)
        [("notes.mdx".toList, "text".toList)]).map Prod.fst =
      ["css/style.css".toList, "notes.mdx.md".toList, "notes.htmlx.html".toList] ∧
    "notes.mdx.html".toList ∉
      (convert_markdown_to_html (fun s => s)
        [("notes.mdx".toList, "text".toList)]).map Prod.fst := by
  constructor
  · decide
  · decide

/-- C1 (amended): for every non-empty mapping whose keys, after the
`.md`-appending normalization, are pairwise distinct and contain `.md`
only as the final extension, the conversion directory contains exactly
`css/style.css` plus, per input entry, one `.md` file and one `.html`
file with the same base name, the HTML name being the markdown name
with the final `.md` replaced by `.html`; all names are pairwise
distinct.  (Keys with `.md` elsewhere get every occurrence replaced,
and distinct keys normalizing to the same filename collapse into a
single document pair, as the counterexample shows.) -/
theorem c1_convert_site_layout (render : List Char → List Char)
    (content : List (List Char × List Char)) (_hne : content ≠ [])
    (hnd : (content.map fun kv => normalizeFilename kv.1).Nodup)
    (hgood : ∀ kv ∈ content, onlyFinalMd (stemOf (normalizeFilename kv.1))) :
    (convert_markdown_to_html render content).map Prod.fst =
      cssName :: content.flatMap (fun kv =>
        [normalizeFilename kv.1, stemOf (normalizeFilename kv.1) ++ htmlExtL]) ∧
    ((convert_markdown_to_html render content).map Prod.fst).Nodup := by
  refine ⟨?_, convert_names_nodup render content hnd hgood⟩
  rw [convert_eq_spec render content hnd hgood, List.map_cons,
    specSiteFiles_names render content]

theorem c1_witness :
    ([("notes".toList, "hello".toList), ("readme.md".toList, "x".toList)] :
        List (List Char × List Char)) ≠ [] ∧
    (([("notes".toList, "hello".toList), ("readme.md".toList, "x".toList)] :
        List (List Char × List Char)).map fun kv => normalizeFilename kv.1).Nodup ∧
    (∀ kv ∈ ([("notes".toList, "hello".toList), ("readme.md".toList, "x".toList)] :
        List (List Char × List Char)), onlyFinalMd (stemOf (normalizeFilename kv.1))) ∧
    ((convert_markdown_to_html (fun s => s)
        [("notes".toList, "hello".toList), ("readme.md".toList, "x".toList)]).map Prod.fst =
      cssName :: ([("notes".toList, "hello".toList), ("readme.md".toList, "x".toList)] :
        List (List Char × List Char)).flatMap (fun kv =>
          [normalizeFilename kv.1, stemOf (normalizeFilename kv.1) ++ htmlExtL]) ∧
      ((convert_markdown_to_html (fun s => s)
        [("notes".toList, "hello".toList), ("readme.md".toList, "x".toList)]).map Prod.fst).Nodup) :=
  ⟨by decide, by decide, by decide,
    c1_convert_site_layout (fun s => s) _ (by decide) (by decide) (by decide)⟩

/-! ## Claims C9 and C10 -/

/-- C9: `convert_markdown_to_html` accepts the empty mapping: the loop
body never runs, the freshly allocated conversion directory receives
exactly the stylesheet `css/style.css`, no document files, and no error
is raised. -/
theorem c9_empty_mapping (render : List Char → List Char) :
    convert_markdown_to_html render [] = [(cssName, cssContent)] := rfl

/-- C10: `get_preview_url` returns exactly `"/preview/" + conversion_id`
for every conversion ID; it consults no filesystem state, so it behaves
identically for IDs with or without a backing directory and never
fails. -/
theorem c10_preview_url (conversion_id : List Char) :
    get_preview_url conversion_id = "/preview/".toList ++ conversion_id := rfl

/-! ## Claim C6: the conversion ID format -/

theorem padNum_length (w n : Nat) : (padNum w n).length = w := by
  simp [padNum]

theorem digitChar_isDigit : ∀ m < 10, (digitChar m).isDigit = true := by decide

theorem padNum_digits (w n : Nat) : ∀ c ∈ padNum w n, c.isDigit = true := by
  intro c hc
  obtain ⟨i, _, rfl⟩ := List.mem_map.mp hc
  exact digitChar_isDigit _ (Nat.mod_lt _ (by norm_num))

theorem hexChar_mem_hexdigits : ∀ m < 16, hexChar m ∈ "0123456789abcdef".toList := by
  decide

theorem uuidHex_length (u : Nat) : (uuidHex u).length = 32 := by
  simp [uuidHex]

theorem uuidHex_chars (u : Nat) : ∀ c ∈ uuidHex u, c ∈ "0123456789abcdef".toList := by
  intro c hc
  obtain ⟨i, _, rfl⟩ := List.mem_map.mp hc
  exact hexChar_mem_hexdigits _ (Nat.mod_lt _ (by norm_num))

/-- C6: every generated conversion ID is
`<identityOrAnonymous>_<YYYYMMDDHHMMSS>_<8-hex-char random suffix>`: the
supplied identity hint when truthy (`None` and the empty string both
fall back to the token `anonymous`), then the 14-digit second-granularity
timestamp, then 8 lowercase hexadecimal characters, joined by
underscores. -/
theorem c6_conversion_id_format (user_id : Option (List Char)) (dt : PyDateTime)
    (u : Nat) (_hdt : validDT dt) :
    ∃ ts suffix : List Char,
      create_conversion_dir user_id dt u =
        (if pyTruthy user_id then user_id.getD [] else "anonymous".toList) ++
          '_' :: ts ++ '_' :: suffix ∧
      ts = strftimeTimestamp dt ∧
      ts.length = 14 ∧ (∀ c ∈ ts, c.isDigit = true) ∧
      suffix.length = 8 ∧ (∀ c ∈ suffix, c ∈ "0123456789abcdef".toList) := by
  refine ⟨strftimeTimestamp dt, (uuidHex u).take 8, ?_, rfl, ?_, ?_, ?_, ?_⟩
  · simp only [create_conversion_dir]
    split <;> rfl
  · simp [strftimeTimestamp, padNum_length]
  · intro c hc
    simp only [strftimeTimestamp, List.mem_append] at hc
    rcases hc with ((((h | h) | h) | h) | h) | h <;> exact padNum_digits _ _ c h
  · rw [List.length_take, uuidHex_length]
    rfl
  · intro c hc
    exact uuidHex_chars u c (List.take_subset 8 _ hc)

theorem c6_witness :
    validDT ⟨2024, 1, 1, 0, 0, 0⟩ ∧
    ∃ ts suffix : List Char,
      create_conversion_dir (some "u1".toList) ⟨2024, 1, 1, 0, 0, 0⟩ 81985529216486895 =
        (if pyTruthy (some "u1".toList) then (some "u1".toList).getD []
          else "anonymous".toList) ++ '_' :: ts ++ '_' :: suffix ∧
      ts = strftimeTimestamp ⟨2024, 1, 1, 0, 0, 0⟩ ∧
      ts.length = 14 ∧ (∀ c ∈ ts, c.isDigit = true) ∧
      suffix.length = 8 ∧ (∀ c ∈ suffix, c ∈ "0123456789abcdef".toList) :=
  ⟨by decide,
    c6_conversion_id_format (some "u1".toList) ⟨2024, 1, 1, 0, 0, 0⟩
      81985529216486895 (by decide)⟩

/-! ## Claim C7: structure of the wrapped HTML document -/

theorem charset_infix_template (n c : List Char) : charsetMeta <:+: htmlTemplate n c := by
  refine ⟨"<!DOCTYPE html>\n<html lang=\"en\">\n<head>\n    ".toList,
    ("\n    <meta name=\"viewport\" content=\"width=device-width, initial-scale=1.0\">\n    <title>").toList ++
      n ++ htmlT2 ++ c ++ htmlT3, ?_⟩
  have h1 : htmlT1 =
      "<!DOCTYPE html>\n<html lang=\"en\">\n<head>\n    ".toList ++ charsetMeta ++
        ("\n    <meta name=\"viewport\" content=\"width=device-width, initial-scale=1.0\">\n    <title>").toList := by
    decide
  rw [htmlTemplate, h1]
  simp [List.append_assoc]

theorem viewport_infix_template (n c : List Char) : viewportMeta <:+: htmlTemplate n c := by
  refine ⟨"<!DOCTYPE html>\n<html lang=\"en\">\n<head>\n    <meta charset=\"UTF-8\">\n    ".toList,
    "\n    <title>".toList ++ n ++ htmlT2 ++ c ++ htmlT3, ?_⟩
  have h1 : htmlT1 =
      "<!DOCTYPE html>\n<html lang=\"en\">\n<head>\n    <meta charset=\"UTF-8\">\n    ".toList ++
        viewportMeta ++ "\n    <title>".toList := by
    decide
  rw [htmlTemplate, h1]
  simp [List.append_assoc]

theorem title_infix_template (n c : List Char) :
    (titleOpen ++ n ++ titleClose) <:+: htmlTemplate n c := by
  refine ⟨("<!DOCTYPE html>\n<html lang=\"en\">\n<head>\n    <meta charset=\"UTF-8\">\n    <meta name=\"viewport\" content=\"width=device-width, initial-scale=1.0\">\n    ").toList,
    "\n    <link rel=\"stylesheet\" href=\"css/style.css\">\n</head>\n<body>\n    ".toList ++
      c ++ htmlT3, ?_⟩
  have h1 : htmlT1 =
      ("<!DOCTYPE html>\n<html lang=\"en\">\n<head>\n    <meta charset=\"UTF-8\">\n    <meta name=\"viewport\" content=\"width=device-width, initial-scale=1.0\">\n    ").toList ++
        titleOpen := by
    decide
  have h2 : htmlT2 =
      titleClose ++
        "\n    <link rel=\"stylesheet\" href=\"css/style.css\">\n</head>\n<body>\n    ".toList := by
    decide
  rw [htmlTemplate, h1, h2]
  simp [List.append_assoc]

theorem csslink_infix_template (n c : List Char) : cssLinkTag <:+: htmlTemplate n c := by
  refine ⟨htmlT1 ++ n ++ "</title>\n    ".toList,
    "\n</head>\n<body>\n    ".toList ++ c ++ htmlT3, ?_⟩
  have h2 : htmlT2 =
      "</title>\n    ".toList ++ cssLinkTag ++ "\n</head>\n<body>\n    ".toList := by
    decide
  rw [htmlTemplate, h2]
  simp [List.append_assoc]

/-- C7: for every rendered document, the written HTML file is the
rendered markdown fragment wrapped in a standalone document declaring
the UTF-8 charset meta tag, the responsive viewport meta tag, a title
equal to the output filename, and a stylesheet link to `css/style.css`
relative to the conversion root. -/
theorem c7_html_document_structure (render : List Char → List Char)
    (content : List (List Char × List Char)) (k v : List Char)
    (hnd : (content.map fun kv => normalizeFilename kv.1).Nodup)
    (hgood : ∀ kv ∈ content, onlyFinalMd (stemOf (normalizeFilename kv.1)))
    (hmem : (k, v) ∈ content) :
    ∃ doc : List Char,
      lookupFile (convert_markdown_to_html render content)
          (stemOf (normalizeFilename k) ++ htmlExtL) = some doc ∧
      doc = htmlTemplate (stemOf (normalizeFilename k) ++ htmlExtL) (render v) ∧
      charsetMeta <:+: doc ∧ viewportMeta <:+: doc ∧
      (titleOpen ++ (stemOf (normalizeFilename k) ++ htmlExtL) ++ titleClose) <:+: doc ∧
      cssLinkTag <:+: doc :=
  ⟨htmlTemplate (stemOf (normalizeFilename k) ++ htmlExtL) (render v),
    lookup_convert_html render content k v hnd hgood hmem, rfl,
    charset_infix_template _ _, viewport_infix_template _ _,
    title_infix_template _ _, csslink_infix_template _ _⟩

theorem c7_witness :
    (([("doc".toList, "hi".toList)] :
        List (List Char × List Char)).map fun kv => normalizeFilename kv.1).Nodup ∧
    (∀ kv ∈ ([("doc".toList, "hi".toList)] : List (List Char × List Char)),
      onlyFinalMd (stemOf (normalizeFilename kv.1))) ∧
    ("doc".toList, "hi".toList) ∈
      ([("doc".toList, "hi".toList)] : List (List Char × List Char)) ∧
    ∃ doc : List Char,
      lookupFile (convert_markdown_to_html (fun s => s) [("doc".toList, "hi".toList)])
          (stemOf (normalizeFilename "doc".toList) ++ htmlExtL) = some doc ∧
      doc = htmlTemplate (stemOf (normalizeFilename "doc".toList) ++ htmlExtL) "hi".toList ∧
      charsetMeta <:+: doc ∧ viewportMeta <:+: doc ∧
      (titleOpen ++ (stemOf (normalizeFilename "doc".toList) ++ htmlExtL) ++ titleClose) <:+: doc ∧
      cssLinkTag <:+: doc :=
  ⟨by decide, by decide, by decide,
    c7_html_document_structure (fun s => s) [("doc".toList, "hi".toList)]
      "doc".toList "hi".toList (by decide) (by decide) (by decide)⟩

/-! ## Claim C8: verbatim markdown and deterministic rendering -/

/-- C8: the `.md` file receives the raw markdown text verbatim, and the
pair of file contents written for an entry is a function of the
filename and markdown text alone: any two conversion runs whose inputs
contain the identical entry write byte-identical `.md` and `.html`
contents for it. -/
theorem c8_verbatim_deterministic (render : List Char → List Char)
    (content1 content2 : List (List Char × List Char)) (k v : List Char)
    (hnd1 : (content1.map fun kv => normalizeFilename kv.1).Nodup)
    (hgood1 : ∀ kv ∈ content1, onlyFinalMd (stemOf (normalizeFilename kv.1)))
    (hnd2 : (content2.map fun kv => normalizeFilename kv.1).Nodup)
    (hgood2 : ∀ kv ∈ content2, onlyFinalMd (stemOf (normalizeFilename kv.1)))
    (hmem1 : (k, v) ∈ content1) (hmem2 : (k, v) ∈ content2) :
    lookupFile (convert_markdown_to_html render content1) (normalizeFilename k) = some v ∧
    lookupFile (convert_markdown_to_html render content2) (normalizeFilename k) = some v ∧
    lookupFile (convert_markdown_to_html render content1)
        (stemOf (normalizeFilename k) ++ htmlExtL) =
      some (htmlTemplate (stemOf (normalizeFilename k) ++ htmlExtL) (render v)) ∧
    lookupFile (convert_markdown_to_html render content2)
        (stemOf (normalizeFilename k) ++ htmlExtL) =
      some (htmlTemplate (stemOf (normalizeFilename k) ++ htmlExtL) (render v)) :=
  ⟨lookup_convert_md render content1 k v hnd1 hgood1 hmem1,
    lookup_convert_md render content2 k v hnd2 hgood2 hmem2,
    lookup_convert_html render content1 k v hnd1 hgood1 hmem1,
    lookup_convert_html render content2 k v hnd2 hgood2 hmem2⟩

theorem c8_witness :
    (([("a".toList, "T".toList)] :
        List (List Char × List Char)).map fun kv => normalizeFilename kv.1).Nodup ∧
    (([("b".toList, "u".toList), ("a".toList, "T".toList)] :
        List (List Char × List Char)).map fun kv => normalizeFilename kv.1).Nodup ∧
    ("a".toList, "T".toList) ∈ ([("a".toList, "T".toList)] : List (List Char × List Char)) ∧
    (lookupFile (convert_markdown_to_html (fun s => s) [("a".toList, "T".toList)])
        (normalizeFilename "a".toList) = some "T".toList ∧
      lookupFile (convert_markdown_to_html (fun s => s)
          [("b".toList, "u".toList), ("a".toList, "T".toList)])
        (normalizeFilename "a".toList) = some "T".toList ∧
      lookupFile (convert_markdown_to_html (fun s => s) [("a".toList, "T".toList)])
          (stemOf (normalizeFilename "a".toList) ++ htmlExtL) =
        some (htmlTemplate (stemOf (normalizeFilename "a".toList) ++ htmlExtL) "T".toList) ∧
      lookupFile (convert_markdown_to_html (fun s => s)
          [("b".toList, "u".toList), ("a".toList, "T".toList)])
          (stemOf (normalizeFilename "a".toList) ++ htmlExtL) =
        some (htmlTemplate (stemOf (normalizeFilename "a".toList) ++ htmlExtL) "T".toList)) :=
  ⟨by decide, by decide, by decide,
    c8_verbatim_deterministic (fun s => s) [("a".toList, "T".toList)]
      [("b".toList, "u".toList), ("a".toList, "T".toList)] "a".toList "T".toList
      (by decide) (by decide) (by decide) (by decide) (by decide) (by decide)⟩

/-! ## Lemmas about the storage-root tree and `os.walk` -/

theorem lookupFE_setFE_self : ∀ (fe : FEntries) (n : String) (x : FNode),
    lookupFE (setFE fe n x) n = some x
  | FEntries.nil, n, x => by simp [setFE, lookupFE]
  | FEntries.cons m nd rest, n, x => by
    by_cases h : (m == n) = true
    · simp [setFE, lookupFE, h]
    · rw [Bool.not_eq_true] at h
      simp [setFE, lookupFE, h, lookupFE_setFE_self rest n x]

theorem lookupFE_setFE_ne : ∀ (fe : FEntries) (n m : String) (x : FNode), m ≠ n →
    lookupFE (setFE fe n x) m = lookupFE fe m
  | FEntries.nil, n, m, x, h => by
    have hnm : (n == m) = false := by
      rw [beq_eq_false_iff_ne]
      exact fun he => h he.symm
    simp [setFE, lookupFE, hnm]
  | FEntries.cons m' nd rest, n, m, x, h => by
    by_cases hm : (m' == n) = true
    · have hm'' : m' = n := beq_iff_eq.mp hm
      have hmm : (m' == m) = false := by
        rw [beq_eq_false_iff_ne, hm'']
        exact fun he => h he.symm
      simp [setFE, lookupFE, hm, hmm]
    · rw [Bool.not_eq_true] at hm
      by_cases hm2 : (m' == m) = true
      · simp [setFE, lookupFE, hm, hm2]
      · rw [Bool.not_eq_true] at hm2
        simp [setFE, lookupFE, hm, hm2, lookupFE_setFE_ne rest n m x h]

theorem mem_walkTop : ∀ (ch : FEntries) (q : List String), q ∈ walkTop ch →
    ∃ n : String, q = [n]
  | FEntries.cons m nd rest, q, hq => by
    rw [walkTop] at hq
    rcases List.mem_append.mp hq with h | h
    · split at h
      · exact absurd h (List.not_mem_nil q)
      · rw [List.mem_singleton] at h
        exact ⟨m, h⟩
    · exact mem_walkTop rest q h

theorem mem_walkRec : ∀ (ch : FEntries) (q : List String), q ∈ walkRec ch →
    ∃ (n : String) (p : List String), q = n :: p
  | FEntries.cons m nd rest, q, hq => by
    rw [walkRec] at hq
    rcases List.mem_append.mp hq with h | h
    · obtain ⟨p, _, rfl⟩ := List.mem_map.mp h
      exact ⟨m, p, rfl⟩
    · exact mem_walkRec rest q h

theorem nil_not_mem_walk (ch : FEntries) :
    ([] : List String) ∉ walkTop ch ++ walkRec ch := by
  intro h
  rcases List.mem_append.mp h with h | h
  · obtain ⟨n, hn⟩ := mem_walkTop ch [] h
    exact List.noConfusion hn
  · obtain ⟨n, p, hnp⟩ := mem_walkRec ch [] h
    exact List.noConfusion hnp

/-! The recursive `os.walk` traversal collects exactly the relative
paths of the regular files in the tree.  First, definitional unfolding
equations. -/

theorem walkTop_cons (n : String) (nd : FNode) (rest : FEntries) :
    walkTop (FEntries.cons n nd rest) =
      (if isDirNode nd = true then [] else [[n]]) ++ walkTop rest := rfl

theorem walkRec_cons (n : String) (nd : FNode) (rest : FEntries) :
    walkRec (FEntries.cons n nd rest) =
      (walkFiles nd).map (fun p => n :: p) ++ walkRec rest := rfl

theorem walkFiles_dir (ch : FEntries) :
    walkFiles (FNode.dir ch) = walkTop ch ++ walkRec ch := rfl

theorem isRegFileIn_cons (m : String) (nd : FNode) (rest : FEntries)
    (n : String) (p : List String) :
    isRegFileIn (FEntries.cons m nd rest) n p =
      ((m == n && isRegFile nd p) || isRegFileIn rest n p) := rfl

theorem isRegFile_file_nil (c : String) : isRegFile (FNode.file c) [] = true := rfl

theorem isRegFile_file_cons (c : String) (q : String) (qs : List String) :
    isRegFile (FNode.file c) (q :: qs) = false := rfl

theorem isRegFile_zipf_nil (es : List (List String)) :
    isRegFile (FNode.zipf es) [] = true := rfl

theorem isRegFile_zipf_cons (es : List (List String)) (q : String) (qs : List String) :
    isRegFile (FNode.zipf es) (q :: qs) = false := rfl

theorem isRegFile_dir_nil (ch : FEntries) : isRegFile (FNode.dir ch) [] = false := rfl

theorem isRegFile_dir_cons (ch : FEntries) (n : String) (p : List String) :
    isRegFile (FNode.dir ch) (n :: p) = isRegFileIn ch n p := rfl

theorem walkBoth : ∀ (ch : FEntries) (n : String) (p : List String),
    (n :: p) ∈ walkTop ch ++ walkRec ch ↔ isRegFileIn ch n p = true
  | FEntries.nil, n, p => by simp [walkTop, walkRec, isRegFileIn]
  | FEntries.cons m nd rest, n, p => by
    have hrest := walkBoth rest n p
    rw [walkTop_cons, walkRec_cons, isRegFileIn_cons]
    cases nd with
    | file c =>
      rw [show isDirNode (FNode.file c) = false from rfl,
        if_neg (by simp), show walkFiles (FNode.file c) = [] from rfl,
        List.map_nil, List.nil_append, List.append_assoc,
        List.mem_append, List.mem_singleton, hrest]
      cases p with
      | nil =>
        rw [isRegFile_file_nil, Bool.and_true, Bool.or_eq_true, beq_iff_eq]
        simp only [List.cons.injEq, and_true]
        exact or_congr eq_comm Iff.rfl
      | cons q qs =>
        rw [isRegFile_file_cons, Bool.and_false, Bool.false_or]
        simp
    | zipf es =>
      rw [show isDirNode (FNode.zipf es) = false from rfl,
        if_neg (by simp), show walkFiles (FNode.zipf es) = [] from rfl,
        List.map_nil, List.nil_append, List.append_assoc,
        List.mem_append, List.mem_singleton, hrest]
      cases p with
      | nil =>
        rw [isRegFile_zipf_nil, Bool.and_true, Bool.or_eq_true, beq_iff_eq]
        simp only [List.cons.injEq, and_true]
        exact or_congr eq_comm Iff.rfl
      | cons q qs =>
        rw [isRegFile_zipf_cons, Bool.and_false, Bool.false_or]
        simp
    | dir ch' =>
      have hdir : p ∈ walkFiles (FNode.dir ch') ↔ isRegFile (FNode.dir ch') p = true := by
        cases p with
        | nil =>
          rw [walkFiles_dir, isRegFile_dir_nil]
          exact ⟨fun h => absurd h (nil_not_mem_walk ch'), fun h => absurd h (by simp)⟩
        | cons q' qs' =>
          rw [walkFiles_dir, isRegFile_dir_cons]
          exact walkBoth ch' q' qs'
      rw [show isDirNode (FNode.dir ch') = true from rfl, if_pos rfl,
        List.nil_append, List.mem_append, List.mem_append,
        Bool.or_eq_true, Bool.and_eq_true, beq_iff_eq]
      constructor
      · rintro (h | h | h)
        · exact Or.inr (hrest.mp (List.mem_append.mpr (Or.inl h)))
        · obtain ⟨q, hq, hqe⟩ := List.mem_map.mp h
          injection hqe with hm hqp
          exact Or.inl ⟨hm, hdir.mp (hqp ▸ hq)⟩
        · exact Or.inr (hrest.mp (List.mem_append.mpr (Or.inr h)))
      · rintro (⟨hm, hreg⟩ | h)
        · refine Or.inr (Or.inl ?_)
          exact List.mem_map.mpr ⟨p, hdir.mpr hreg, by rw [hm]⟩
        · rcases List.mem_append.mp (hrest.mpr h) with h' | h'
          · exact Or.inl h'
          · exact Or.inr (Or.inr h')
termination_by ch _ _ => sizeOf ch
decreasing_by
  all_goals simp_wf
  all_goals omega

theorem walkDir_iff (ch : FEntries) (p : List String) :
    p ∈ walkFiles (FNode.dir ch) ↔ isRegFile (FNode.dir ch) p = true := by
  cases p with
  | nil =>
    rw [walkFiles_dir, isRegFile_dir_nil]
    exact ⟨fun h => absurd h (nil_not_mem_walk ch), fun h => absurd h (by simp)⟩
  | cons n p' =>
    rw [walkFiles_dir, isRegFile_dir_cons]
    exact walkBoth ch n p'

/-! ## Claims C4 and C5 -/

/-- C4: `create_zip` on a conversion ID with no top-level entry under
the storage root raises `FileNotFoundError` before opening the archive
for writing: the storage root is left unchanged, so in particular no
`<id>.zip` is created. -/
theorem c4_create_zip_not_found (root : FEntries) (conversion_id : String)
    (h : lookupFE root conversion_id = none) :
    create_zip root conversion_id =
      (Except.error ("Conversion " ++ conversion_id ++ " not found"), root) := by
  unfold create_zip
  rw [h]

theorem c4_witness :
    lookupFE FEntries.nil "missing" = none ∧
    create_zip FEntries.nil "missing" =
      (Except.error ("Conversion " ++ "missing" ++ " not found"), FEntries.nil) :=
  ⟨rfl, c4_create_zip_not_found FEntries.nil "missing" rfl⟩

theorem zipname_ne_self (conversion_id : String) :
    conversion_id ≠ conversion_id ++ ".zip" := by
  intro h
  have hlen := congrArg String.length h
  rw [String.length_append] at hlen
  have h4 : (".zip" : String).length = 4 := rfl
  omega

/-- C5: for an existing conversion directory, `create_zip` writes the
archive at the deterministic sibling path `storageRoot/<id>.zip`,
leaving the conversion directory itself untouched, and the archive's
entries are exactly the relative paths of the regular files in the
conversion's directory tree. -/
theorem c5_create_zip_spec (root : FEntries) (conversion_id : String) (ch : FEntries)
    (h : lookupFE root conversion_id = some (FNode.dir ch)) :
    create_zip root conversion_id =
      (Except.ok (conversion_id ++ ".zip"),
        setFE root (conversion_id ++ ".zip") (FNode.zipf (walkFiles (FNode.dir ch)))) ∧
    lookupFE (setFE root (conversion_id ++ ".zip")
        (FNode.zipf (walkFiles (FNode.dir ch)))) (conversion_id ++ ".zip") =
      some (FNode.zipf (walkFiles (FNode.dir ch))) ∧
    lookupFE (setFE root (conversion_id ++ ".zip")
        (FNode.zipf (walkFiles (FNode.dir ch)))) conversion_id =
      some (FNode.dir ch) ∧
    ∀ p : List String, p ∈ walkFiles (FNode.dir ch) ↔ isRegFile (FNode.dir ch) p = true := by
  refine ⟨?_, lookupFE_setFE_self _ _ _, ?_, walkDir_iff ch⟩
  · unfold create_zip
    rw [h]
  · rw [lookupFE_setFE_ne root _ _ _ (zipname_ne_self conversion_id)]
    exact h

theorem c5_witness :
    lookupFE
        (FEntries.cons "conv1"
          (FNode.dir (FEntries.cons "a" (FNode.file "A")
            (FEntries.cons "b" (FNode.dir (FEntries.cons "c" (FNode.file "C") FEntries.nil))
              FEntries.nil)))
          FEntries.nil) "conv1" =
      some (FNode.dir (FEntries.cons "a" (FNode.file "A")
        (FEntries.cons "b" (FNode.dir (FEntries.cons "c" (FNode.file "C") FEntries.nil))
          FEntries.nil))) ∧
    walkFiles (FNode.dir (FEntries.cons "a" (FNode.file "A")
        (FEntries.cons "b" (FNode.dir (FEntries.cons "c" (FNode.file "C") FEntries.nil))
          FEntries.nil))) = [["a"], ["b", "c"]] ∧
    (create_zip
        (FEntries.cons "conv1"
          (FNode.dir (FEntries.cons "a" (FNode.file "A")
            (FEntries.cons "b" (FNode.dir (FEntries.cons "c" (FNode.file "C") FEntries.nil))
              FEntries.nil)))
          FEntries.nil) "conv1" =
      (Except.ok ("conv1" ++ ".zip"),
        setFE
          (FEntries.cons "conv1"
            (FNode.dir (FEntries.cons "a" (FNode.file "A")
              (FEntries.cons "b" (FNode.dir (FEntries.cons "c" (FNode.file "C") FEntries.nil))
                FEntries.nil)))
            FEntries.nil) ("conv1" ++ ".zip")
          (FNode.zipf (walkFiles (FNode.dir (FEntries.cons "a" (FNode.file "A")
            (FEntries.cons "b" (FNode.dir (FEntries.cons "c" (FNode.file "C") FEntries.nil))
              FEntries.nil)))))) ∧
      lookupFE
          (setFE
            (FEntries.cons "conv1"
              (FNode.dir (FEntries.cons "a" (FNode.file "A")
                (FEntries.cons "b" (FNode.dir (FEntries.cons "c" (FNode.file "C") FEntries.nil))
                  FEntries.nil)))
              FEntries.nil) ("conv1" ++ ".zip")
            (FNode.zipf (walkFiles (FNode.dir (FEntries.cons "a" (FNode.file "A")
              (FEntries.cons "b" (FNode.dir (FEntries.cons "c" (FNode.file "C") FEntries.nil))
                FEntries.nil)))))) ("conv1" ++ ".zip") =
        some (FNode.zipf (walkFiles (FNode.dir (FEntries.cons "a" (FNode.file "A")
          (FEntries.cons "b" (FNode.dir (FEntries.cons "c" (FNode.file "C") FEntries.nil))
            FEntries.nil))))) ∧
      lookupFE
          (setFE
            (FEntries.cons "conv1"
              (FNode.dir (FEntries.cons "a" (FNode.file "A")
                (FEntries.cons "b" (FNode.dir (FEntries.cons "c" (FNode.file "C") FEntries.nil))
                  FEntries.nil)))
              FEntries.nil) ("conv1" ++ ".zip")
            (FNode.zipf (walkFiles (FNode.dir (FEntries.cons "a" (FNode.file "A")
              (FEntries.cons "b" (FNode.dir (FEntries.cons "c" (FNode.file "C") FEntries.nil))
                FEntries.nil)))))) "conv1" =
        some (FNode.dir (FEntries.cons "a" (FNode.file "A")
          (FEntries.cons "b" (FNode.dir (FEntries.cons "c" (FNode.file "C") FEntries.nil))
            FEntries.nil))) ∧
      ∀ p : List String,
        p ∈ walkFiles (FNode.dir (FEntries.cons "a" (FNode.file "A")
          (FEntries.cons "b" (FNode.dir (FEntries.cons "c" (FNode.file "C") FEntries.nil))
            FEntries.nil))) ↔
        isRegFile (FNode.dir (FEntries.cons "a" (FNode.file "A")
          (FEntries.cons "b" (FNode.dir (FEntries.cons "c" (FNode.file "C") FEntries.nil))
            FEntries.nil))) p = true) :=
  ⟨rfl, rfl, c5_create_zip_spec _ "conv1" _ rfl⟩

/-! ## Lemmas about the sweeper's directory listing -/

theorem mem_removeEntry (fs : List DirEntry) (n : List Char) (e : DirEntry) :
    e ∈ removeEntry fs n ↔ e ∈ fs ∧ e.name ≠ n := by
  simp [removeEntry, List.mem_filter, bne_iff_ne]

theorem removeEntry_names_nodup (fs : List DirEntry) (n : List Char)
    (h : (fs.map DirEntry.name).Nodup) :
    ((removeEntry fs n).map DirEntry.name).Nodup :=
  List.Nodup.sublist ((List.filter_sublist fs).map DirEntry.name) h

theorem findEntry_some {fs : List DirEntry} {n : List Char} {e : DirEntry}
    (h : findEntry fs n = some e) : e ∈ fs ∧ e.name = n := by
  unfold findEntry at h
  have h1 := List.find?_some h
  exact ⟨List.mem_of_find?_eq_some h, beq_iff_eq.mp h1⟩

theorem findEntry_none_iff {fs : List DirEntry} {n : List Char} :
    findEntry fs n = none ↔ ∀ e ∈ fs, e.name ≠ n := by
  unfold findEntry
  rw [List.find?_eq_none]
  simp

theorem findEntry_of_mem_nodup : ∀ {fs : List DirEntry} {e : DirEntry},
    (fs.map DirEntry.name).Nodup → e ∈ fs → findEntry fs e.name = some e := by
  intro fs
  induction fs with
  | nil => intro e _ h; exact absurd h (List.not_mem_nil _)
  | cons x fs ih =>
    intro e hnd hmem
    rw [List.map_cons] at hnd
    obtain ⟨hx, hnd'⟩ := List.nodup_cons.mp hnd
    rcases List.mem_cons.mp hmem with rfl | hmem'
    · unfold findEntry
      rw [List.find?_cons_of_pos _ (by simp)]
    · have hne : x.name ≠ e.name := by
        intro h
        exact hx (h ▸ List.mem_map_of_mem DirEntry.name hmem')
      unfold findEntry
      rw [List.find?_cons_of_neg _ (by simp [hne])]
      exact ih hnd' hmem'

theorem findEntry_unique {fs : List DirEntry} {n : List Char} {e e' : DirEntry}
    (hnd : (fs.map DirEntry.name).Nodup) (hfind : findEntry fs n = some e)
    (he' : e' ∈ fs) (hn : e'.name = n) : e' = e := by
  have h := findEntry_of_mem_nodup hnd he'
  rw [hn, hfind] at h
  exact (Option.some.inj h).symm

theorem findEntry_removeEntry_self (fs : List DirEntry) (n : List Char) :
    findEntry (removeEntry fs n) n = none := by
  rw [findEntry_none_iff]
  intro e he
  exact ((mem_removeEntry fs n e).mp he).2

theorem findEntry_removeEntry_ne : ∀ (fs : List DirEntry) (n m : List Char), m ≠ n →
    findEntry (removeEntry fs n) m = findEntry fs m
  | [], _, _, _ => rfl
  | e :: fs, n, m, h => by
    have hrec := findEntry_removeEntry_ne fs n m h
    by_cases he : e.name = n
    · have hb : (e.name != n) = false := by simp [he]
      have hm : (e.name == m) = false := by
        rw [beq_eq_false_iff_ne, he]
        exact fun x => h x.symm
      show findEntry (List.filter (fun x => x.name != n) (e :: fs)) m = _
      rw [List.filter_cons, hb]
      simp only [Bool.false_eq_true, if_false]
      unfold findEntry
      rw [List.find?_cons_of_neg _ (by simp [hm])]
      exact hrec
    · have hb : (e.name != n) = true := by simp [he]
      show findEntry (List.filter (fun x => x.name != n) (e :: fs)) m = _
      rw [List.filter_cons, hb]
      simp only [if_true]
      by_cases hm : e.name = m
      · unfold findEntry
        rw [List.find?_cons_of_pos _ (by simp [hm]),
          List.find?_cons_of_pos _ (by simp [hm])]
      · unfold findEntry
        rw [List.find?_cons_of_neg _ (by simp [hm]),
          List.find?_cons_of_neg _ (by simp [hm])]
        exact hrec

theorem name_ne_zipname (n : List Char) : n ≠ n ++ zipExt := by
  intro h
  have hlen := congrArg List.length h
  rw [List.length_append] at hlen
  have h4 : zipExt.length = 4 := rfl
  omega

theorem zipExt_suffix_append (n : List Char) :
    zipExt.isSuffixOf (n ++ zipExt) = true :=
  List.isSuffixOf_iff_suffix.mpr (List.suffix_append n zipExt)

/-! Unfolding equations for one iteration of the sweep loop. -/

theorem sweepLoop_cons_none (rf : List Char → Bool) (cutoff : Int)
    (item : List Char) (rest : List (List Char)) (fs : List DirEntry)
    (removed : List (List Char)) (h : findEntry fs item = none) :
    sweepLoop rf cutoff (item :: rest) fs removed =
      sweepLoop rf cutoff rest fs removed := by
  rw [sweepLoop, h]

theorem sweepLoop_cons_notdir (rf : List Char → Bool) (cutoff : Int)
    (item : List Char) (rest : List (List Char)) (fs : List DirEntry)
    (removed : List (List Char)) (e : DirEntry)
    (h : findEntry fs item = some e) (hdir : e.isDir = false) :
    sweepLoop rf cutoff (item :: rest) fs removed =
      sweepLoop rf cutoff rest fs removed := by
  rw [sweepLoop, h]
  simp [hdir]

theorem sweepLoop_cons_fresh (rf : List Char → Bool) (cutoff : Int)
    (item : List Char) (rest : List (List Char)) (fs : List DirEntry)
    (removed : List (List Char)) (e : DirEntry)
    (h : findEntry fs item = some e) (hmt : ¬ e.mtime < cutoff) :
    sweepLoop rf cutoff (item :: rest) fs removed =
      sweepLoop rf cutoff rest fs removed := by
  rw [sweepLoop, h]
  simp [hmt]

theorem sweepLoop_cons_stale_fail (rf : List Char → Bool) (cutoff : Int)
    (item : List Char) (rest : List (List Char)) (fs : List DirEntry)
    (removed : List (List Char)) (e : DirEntry)
    (h : findEntry fs item = some e) (hdir : e.isDir = true)
    (hmt : e.mtime < cutoff) (hfail : rf item = true) :
    sweepLoop rf cutoff (item :: rest) fs removed = Except.error item := by
  rw [sweepLoop, h]
  simp [hdir, hmt, hfail]

theorem sweepLoop_cons_stale_zip (rf : List Char → Bool) (cutoff : Int)
    (item : List Char) (rest : List (List Char)) (fs : List DirEntry)
    (removed : List (List Char)) (e z : DirEntry)
    (h : findEntry fs item = some e) (hdir : e.isDir = true)
    (hmt : e.mtime < cutoff) (hfail : rf item = false)
    (hz : findEntry (removeEntry fs item) (item ++ zipExt) = some z)
    (hzdir : z.isDir = false) (hzfail : rf (item ++ zipExt) = false) :
    sweepLoop rf cutoff (item :: rest) fs removed =
      sweepLoop rf cutoff rest (removeEntry (removeEntry fs item) (item ++ zipExt))
        (removed ++ [item]) := by
  rw [sweepLoop, h]
  simp [hdir, hmt, hfail, hz, hzdir, hzfail]

theorem sweepLoop_cons_stale_nozip (rf : List Char → Bool) (cutoff : Int)
    (item : List Char) (rest : List (List Char)) (fs : List DirEntry)
    (removed : List (List Char)) (e : DirEntry)
    (h : findEntry fs item = some e) (hdir : e.isDir = true)
    (hmt : e.mtime < cutoff) (hfail : rf item = false)
    (hz : findEntry (removeEntry fs item) (item ++ zipExt) = none) :
    sweepLoop rf cutoff (item :: rest) fs removed =
      sweepLoop rf cutoff rest (removeEntry fs item) (removed ++ [item]) := by
  rw [sweepLoop, h]
  simp [hdir, hmt, hfail, hz]

/-! The retention sweep with no deletion failures: a full
characterisation of the returned list and the surviving entries. -/

theorem sweepLoop_noFail (cutoff : Int) :
    ∀ (names : List (List Char)) (fs : List DirEntry) (removed : List (List Char)),
      (fs.map DirEntry.name).Nodup → names.Nodup →
      (∀ x ∈ fs, zipExt.isSuffixOf x.name = true → x.isDir = false) →
      ∃ fs' : List DirEntry,
        sweepLoop (fun _ => false) cutoff names fs removed =
          Except.ok (removed ++ names.filter (staleInB cutoff fs), fs') ∧
        ∀ x : DirEntry, x ∈ fs' ↔ x ∈ fs ∧
          ¬(x.name ∈ names ∧ staleDir cutoff x) ∧
          ¬∃ d ∈ fs, d.name ∈ names ∧ staleDir cutoff d ∧ x.name = d.name ++ zipExt := by
  intro names
  induction names with
  | nil =>
    intro fs removed _ _ _
    refine ⟨fs, ?_, ?_⟩
    · rw [sweepLoop]
      simp
    · intro x
      simp
  | cons item rest ih =>
    intro fs removed hndfs hndn hzips
    obtain ⟨hnn, hndr⟩ := List.nodup_cons.mp hndn
    cases hfind : findEntry fs item with
    | none =>
      obtain ⟨fs', hok, hchar⟩ := ih fs removed hndfs hndr hzips
      have hstale : staleInB cutoff fs item = false := by
        rw [staleInB, hfind]
      have hni : ∀ x ∈ fs, x.name ≠ item := findEntry_none_iff.mp hfind
      refine ⟨fs', ?_, ?_⟩
      · rw [sweepLoop_cons_none _ _ _ _ _ _ hfind, hok, List.filter_cons, hstale]
        simp
      · intro x
        rw [hchar x]
        constructor
        · rintro ⟨hxf, hA, hB⟩
          refine ⟨hxf, ?_, ?_⟩
          · rintro ⟨hmem, hP⟩
            rcases List.mem_cons.mp hmem with heq | hmem'
            · exact hni x hxf heq
            · exact hA ⟨hmem', hP⟩
          · rintro ⟨d, hd, hdm, hdP, hxz⟩
            rcases List.mem_cons.mp hdm with heq | hdm'
            · exact hni d hd heq
            · exact hB ⟨d, hd, hdm', hdP, hxz⟩
        · rintro ⟨hxf, hA, hB⟩
          refine ⟨hxf, ?_, ?_⟩
          · rintro ⟨hmem', hP⟩
            exact hA ⟨List.mem_cons_of_mem _ hmem', hP⟩
          · rintro ⟨d, hd, hdm', hdP, hxz⟩
            exact hB ⟨d, hd, List.mem_cons_of_mem _ hdm', hdP, hxz⟩
    | some e =>
      obtain ⟨hef, hen⟩ := findEntry_some hfind
      have hunique : ∀ x ∈ fs, x.name = item → x = e :=
        fun x hx hxn => findEntry_unique hndfs hfind hx hxn
      by_cases hdir : e.isDir = true
      · by_cases hmt : e.mtime < cutoff
        · -- stale directory: it is removed, along with its zip sibling
          have hPe : staleDir cutoff e := ⟨hdir, hmt⟩
          have hstale : staleInB cutoff fs item = true := by
            rw [staleInB, hfind]
            simp [hdir, hmt]
          have hnd1 : ((removeEntry fs item).map DirEntry.name).Nodup :=
            removeEntry_names_nodup fs item hndfs
          cases hz : findEntry (removeEntry fs item) (item ++ zipExt) with
          | some z =>
            obtain ⟨hzf1, hzn⟩ := findEntry_some hz
            have hzf : z ∈ fs := ((mem_removeEntry fs item z).mp hzf1).1
            have hzdir : z.isDir = false :=
              hzips z hzf (hzn ▸ zipExt_suffix_append item)
            have hnd2 : (((removeEntry (removeEntry fs item) (item ++ zipExt)).map
                DirEntry.name)).Nodup :=
              removeEntry_names_nodup _ _ hnd1
            have hzips2 : ∀ x ∈ removeEntry (removeEntry fs item) (item ++ zipExt),
                zipExt.isSuffixOf x.name = true → x.isDir = false := by
              intro x hx hs
              exact hzips x
                ((mem_removeEntry fs item x).mp
                  ((mem_removeEntry _ _ x).mp hx).1).1 hs
            obtain ⟨fs', hok, hchar⟩ :=
              ih (removeEntry (removeEntry fs item) (item ++ zipExt))
                (removed ++ [item]) hnd2 hndr hzips2
            have hmem2 : ∀ x : DirEntry,
                x ∈ removeEntry (removeEntry fs item) (item ++ zipExt) ↔
                  x ∈ fs ∧ x.name ≠ item ∧ x.name ≠ item ++ zipExt := by
              intro x
              rw [mem_removeEntry, mem_removeEntry]
              tauto
            have hfz : findEntry fs (item ++ zipExt) = some z := by
              have h0 := findEntry_of_mem_nodup hndfs hzf
              rw [hzn] at h0
              exact h0
            have huniqz : ∀ x ∈ fs, x.name = item ++ zipExt → x = z :=
              fun x hx hxn => findEntry_unique hndfs hfz hx hxn
            have hfilter :
                rest.filter (staleInB cutoff
                  (removeEntry (removeEntry fs item) (item ++ zipExt))) =
                rest.filter (staleInB cutoff fs) := by
              apply List.filter_congr
              intro n hn
              by_cases hnz : n = item ++ zipExt
              · subst hnz
                have h1 : findEntry (removeEntry (removeEntry fs item)
                    (item ++ zipExt)) (item ++ zipExt) = none :=
                  findEntry_removeEntry_self _ _
                rw [staleInB, staleInB, h1, hfz]
                simp [hzdir]
              · have hni2 : n ≠ item := fun heq => hnn (heq ▸ hn)
                rw [staleInB, staleInB, findEntry_removeEntry_ne _ _ _ hnz,
                  findEntry_removeEntry_ne _ _ _ hni2]
            refine ⟨fs', ?_, ?_⟩
            · rw [sweepLoop_cons_stale_zip _ _ _ _ _ _ _ _ hfind hdir hmt rfl hz
                hzdir rfl, hok, List.filter_cons, hstale, hfilter]
              simp [List.append_assoc]
            · intro x
              rw [hchar x]
              constructor
              · rintro ⟨hxf2, hA, hB⟩
                obtain ⟨hxf, hne1, hne2⟩ := (hmem2 x).mp hxf2
                refine ⟨hxf, ?_, ?_⟩
                · rintro ⟨hmem, hP⟩
                  rcases List.mem_cons.mp hmem with heq | hmem'
                  · exact hne1 heq
                  · exact hA ⟨hmem', hP⟩
                · rintro ⟨d, hd, hdm, hdP, hxz⟩
                  rcases List.mem_cons.mp hdm with heq | hdm'
                  · exact hne2 (by rw [hxz, heq])
                  · have hdne1 : d.name ≠ item := fun hh => hnn (hh ▸ hdm')
                    have hdne2 : d.name ≠ item ++ zipExt := by
                      intro hh
                      have hdz := huniqz d hd hh
                      rw [hdz] at hdP
                      exact absurd (hdP.1.symm.trans hzdir) (by simp)
                    exact hB ⟨d, (hmem2 d).mpr ⟨hd, hdne1, hdne2⟩, hdm', hdP, hxz⟩
              · rintro ⟨hxf, hA, hB⟩
                have hne1 : x.name ≠ item := by
                  intro hh
                  have hxe := hunique x hxf hh
                  exact hA ⟨List.mem_cons.mpr (Or.inl hh), by rw [hxe]; exact hPe⟩
                have hne2 : x.name ≠ item ++ zipExt := by
                  intro hh
                  refine hB ⟨e, hef, List.mem_cons.mpr (Or.inl hen), hPe, ?_⟩
                  rw [hh, hen]
                refine ⟨(hmem2 x).mpr ⟨hxf, hne1, hne2⟩, ?_, ?_⟩
                · rintro ⟨hmem', hP⟩
                  exact hA ⟨List.mem_cons_of_mem _ hmem', hP⟩
                · rintro ⟨d, hd2, hdm', hdP, hxz⟩
                  exact hB ⟨d, ((hmem2 d).mp hd2).1, List.mem_cons_of_mem _ hdm',
                    hdP, hxz⟩
          | none =>
            have hnone_fs : findEntry fs (item ++ zipExt) = none := by
              rw [findEntry_none_iff]
              intro x hx hxn
              have hxi : x.name ≠ item := by
                rw [hxn]
                exact fun hh => name_ne_zipname item hh.symm
              have hx1 : x ∈ removeEntry fs item :=
                (mem_removeEntry fs item x).mpr ⟨hx, hxi⟩
              exact (findEntry_none_iff.mp hz) x hx1 hxn
            have hzips1 : ∀ x ∈ removeEntry fs item,
                zipExt.isSuffixOf x.name = true → x.isDir = false := by
              intro x hx hs
              exact hzips x ((mem_removeEntry fs item x).mp hx).1 hs
            obtain ⟨fs', hok, hchar⟩ :=
              ih (removeEntry fs item) (removed ++ [item]) hnd1 hndr hzips1
            have hmem1 : ∀ x : DirEntry,
                x ∈ removeEntry fs item ↔ x ∈ fs ∧ x.name ≠ item :=
              fun x => mem_removeEntry fs item x
            have hfilter :
                rest.filter (staleInB cutoff (removeEntry fs item)) =
                rest.filter (staleInB cutoff fs) := by
              apply List.filter_congr
              intro n hn
              have hni2 : n ≠ item := fun heq => hnn (heq ▸ hn)
              rw [staleInB, staleInB, findEntry_removeEntry_ne _ _ _ hni2]
            refine ⟨fs', ?_, ?_⟩
            · rw [sweepLoop_cons_stale_nozip _ _ _ _ _ _ _ hfind hdir hmt rfl hz,
                hok, List.filter_cons, hstale, hfilter]
              simp [List.append_assoc]
            · intro x
              rw [hchar x]
              constructor
              · rintro ⟨hxf1, hA, hB⟩
                obtain ⟨hxf, hne1⟩ := (hmem1 x).mp hxf1
                refine ⟨hxf, ?_, ?_⟩
                · rintro ⟨hmem, hP⟩
                  rcases List.mem_cons.mp hmem with heq | hmem'
                  · exact hne1 heq
                  · exact hA ⟨hmem', hP⟩
                · rintro ⟨d, hd, hdm, hdP, hxz⟩
                  rcases List.mem_cons.mp hdm with heq | hdm'
                  · exact (findEntry_none_iff.mp hz) x hxf1 (by rw [hxz, heq])
                  · have hdne1 : d.name ≠ item := fun hh => hnn (hh ▸ hdm')
                    exact hB ⟨d, (hmem1 d).mpr ⟨hd, hdne1⟩, hdm', hdP, hxz⟩
              · rintro ⟨hxf, hA, hB⟩
                have hne1 : x.name ≠ item := by
                  intro hh
                  have hxe := hunique x hxf hh
                  exact hA ⟨List.mem_cons.mpr (Or.inl hh), by rw [hxe]; exact hPe⟩
                refine ⟨(hmem1 x).mpr ⟨hxf, hne1⟩, ?_, ?_⟩
                · rintro ⟨hmem', hP⟩
                  exact hA ⟨List.mem_cons_of_mem _ hmem', hP⟩
                · rintro ⟨d, hd1, hdm', hdP, hxz⟩
                  exact hB ⟨d, ((hmem1 d).mp hd1).1, List.mem_cons_of_mem _ hdm',
                    hdP, hxz⟩
        · -- fresh directory: left untouched
          obtain ⟨fs', hok, hchar⟩ := ih fs removed hndfs hndr hzips
          have hstale : staleInB cutoff fs item = false := by
            rw [staleInB, hfind]
            simp [hmt]
          refine ⟨fs', ?_, ?_⟩
          · rw [sweepLoop_cons_fresh _ _ _ _ _ _ _ hfind hmt, hok,
              List.filter_cons, hstale]
            simp
          · intro x
            rw [hchar x]
            constructor
            · rintro ⟨hxf, hA, hB⟩
              refine ⟨hxf, ?_, ?_⟩
              · rintro ⟨hmem, hP⟩
                rcases List.mem_cons.mp hmem with heq | hmem'
                · have hxe := hunique x hxf heq
                  rw [hxe] at hP
                  exact hmt hP.2
                · exact hA ⟨hmem', hP⟩
              · rintro ⟨d, hd, hdm, hdP, hxz⟩
                rcases List.mem_cons.mp hdm with heq | hdm'
                · have hde := hunique d hd heq
                  rw [hde] at hdP
                  exact hmt hdP.2
                · exact hB ⟨d, hd, hdm', hdP, hxz⟩
            · rintro ⟨hxf, hA, hB⟩
              refine ⟨hxf, ?_, ?_⟩
              · rintro ⟨hmem', hP⟩
                exact hA ⟨List.mem_cons_of_mem _ hmem', hP⟩
              · rintro ⟨d, hd, hdm', hdP, hxz⟩
                exact hB ⟨d, hd, List.mem_cons_of_mem _ hdm', hdP, hxz⟩
      · -- not a directory: ignored by the pass
        have hdir' : e.isDir = false := by simpa using hdir
        obtain ⟨fs', hok, hchar⟩ := ih fs removed hndfs hndr hzips
        have hstale : staleInB cutoff fs item = false := by
          rw [staleInB, hfind]
          simp [hdir']
        refine ⟨fs', ?_, ?_⟩
        · rw [sweepLoop_cons_notdir _ _ _ _ _ _ _ hfind hdir', hok,
            List.filter_cons, hstale]
          simp
        · intro x
          rw [hchar x]
          constructor
          · rintro ⟨hxf, hA, hB⟩
            refine ⟨hxf, ?_, ?_⟩
            · rintro ⟨hmem, hP⟩
              rcases List.mem_cons.mp hmem with heq | hmem'
              · have hxe := hunique x hxf heq
                rw [hxe] at hP
                exact absurd (hP.1.symm.trans hdir') (by simp)
              · exact hA ⟨hmem', hP⟩
            · rintro ⟨d, hd, hdm, hdP, hxz⟩
              rcases List.mem_cons.mp hdm with heq | hdm'
              · have hde := hunique d hd heq
                rw [hde] at hdP
                exact absurd (hdP.1.symm.trans hdir') (by simp)
              · exact hB ⟨d, hd, hdm', hdP, hxz⟩
          · rintro ⟨hxf, hA, hB⟩
            refine ⟨hxf, ?_, ?_⟩
            · rintro ⟨hmem', hP⟩
              exact hA ⟨List.mem_cons_of_mem _ hmem', hP⟩
            · rintro ⟨d, hd, hdm', hdP, hxz⟩
              exact hB ⟨d, hd, List.mem_cons_of_mem _ hdm', hdP, hxz⟩

theorem staleInB_true_iff {cutoff : Int} {fs : List DirEntry} {n : List Char}
    (hnd : (fs.map DirEntry.name).Nodup) :
    staleInB cutoff fs n = true ↔ ∃ e ∈ fs, e.name = n ∧ staleDir cutoff e := by
  constructor
  · intro h
    cases hfe : findEntry fs n with
    | none =>
      rw [staleInB, hfe] at h
      simp at h
    | some e =>
      rw [staleInB, hfe] at h
      simp only [Bool.and_eq_true, decide_eq_true_eq] at h
      obtain ⟨he, hen⟩ := findEntry_some hfe
      exact ⟨e, he, hen, h.1, h.2⟩
  · rintro ⟨e, he, hen, hdir, hmt⟩
    have hfe : findEntry fs n = some e := by
      have h0 := findEntry_of_mem_nodup hnd he
      rw [hen] at h0
      exact h0
    rw [staleInB, hfe]
    simp [hdir, hmt]

/-! ## Claim C3 -/

/-- C3: when no deletion fails, `cleanup_old_conversions` returns
exactly the names of the top-level directories whose modification time
is strictly before `now` minus the retention period; those directories
are removed together with their sibling `<id>.zip` entries; every other
entry — non-directories, and directories modified at or after the
cutoff — survives.  Hypotheses: directory listings carry distinct
names, and entries named `*.zip` are files, not directories (as the
archiver guarantees). -/
theorem c3_cleanup_spec (fs : List DirEntry) (now : Int) (days_to_keep : Nat)
    (hnd : (fs.map DirEntry.name).Nodup)
    (hzips : ∀ e ∈ fs, zipExt.isSuffixOf e.name = true → e.isDir = false) :
    ∃ (removed : List (List Char)) (fs' : List DirEntry),
      cleanup_old_conversions (fun _ => false) fs now days_to_keep =
        Except.ok (removed, fs') ∧
      (∀ n : List Char, n ∈ removed ↔ ∃ e ∈ fs, e.name = n ∧
        staleDir (now - (days_to_keep * 24 * 60 * 60 : Nat)) e) ∧
      (∀ e : DirEntry, e ∈ fs' ↔ e ∈ fs ∧
        ¬staleDir (now - (days_to_keep * 24 * 60 * 60 : Nat)) e ∧
        ¬∃ d ∈ fs, staleDir (now - (days_to_keep * 24 * 60 * 60 : Nat)) d ∧
          e.name = d.name ++ zipExt) := by
  obtain ⟨fs', hok, hchar⟩ :=
    sweepLoop_noFail (now - (days_to_keep * 24 * 60 * 60 : Nat))
      (fs.map DirEntry.name) fs [] hnd hnd hzips
  rw [List.nil_append] at hok
  refine ⟨(fs.map DirEntry.name).filter
    (staleInB (now - (days_to_keep * 24 * 60 * 60 : Nat)) fs), fs', hok, ?_, ?_⟩
  · intro n
    rw [List.mem_filter]
    constructor
    · rintro ⟨-, hst⟩
      exact (staleInB_true_iff hnd).mp hst
    · rintro ⟨e, he, hen, hP⟩
      refine ⟨?_, (staleInB_true_iff hnd).mpr ⟨e, he, hen, hP⟩⟩
      rw [← hen]
      exact List.mem_map_of_mem DirEntry.name he
  · intro e
    rw [hchar e]
    constructor
    · rintro ⟨hef, hA, hB⟩
      refine ⟨hef, ?_, ?_⟩
      · intro hP
        exact hA ⟨List.mem_map_of_mem DirEntry.name hef, hP⟩
      · rintro ⟨d, hd, hdP, hez⟩
        exact hB ⟨d, hd, List.mem_map_of_mem DirEntry.name hd, hdP, hez⟩
    · rintro ⟨hef, hA, hB⟩
      refine ⟨hef, ?_, ?_⟩
      · rintro ⟨-, hP⟩
        exact hA hP
      · rintro ⟨d, hd, -, hdP, hez⟩
        exact hB ⟨d, hd, hdP, hez⟩

theorem c3_witness :
    (([⟨"old".toList, true, 0⟩, ⟨"old.zip".toList, false, 5⟩,
        ⟨"fresh".toList, true, 2000000000⟩, ⟨"notes.txt".toList, false, 0⟩] :
      List DirEntry).map DirEntry.name).Nodup ∧
    (∀ e ∈ ([⟨"old".toList, true, 0⟩, ⟨"old.zip".toList, false, 5⟩,
        ⟨"fresh".toList, true, 2000000000⟩, ⟨"notes.txt".toList, false, 0⟩] :
      List DirEntry), zipExt.isSuffixOf e.name = true → e.isDir = false) ∧
    ∃ (removed : List (List Char)) (fs' : List DirEntry),
      cleanup_old_conversions (fun _ => false)
        [⟨"old".toList, true, 0⟩, ⟨"old.zip".toList, false, 5⟩,
          ⟨"fresh".toList, true, 2000000000⟩, ⟨"notes.txt".toList, false, 0⟩]
        1000000000 7 = Except.ok (removed, fs') ∧
      (∀ n : List Char, n ∈ removed ↔
        ∃ e ∈ ([⟨"old".toList, true, 0⟩, ⟨"old.zip".toList, false, 5⟩,
          ⟨"fresh".toList, true, 2000000000⟩, ⟨"notes.txt".toList, false, 0⟩] :
            List DirEntry), e.name = n ∧
          staleDir (1000000000 - ((7 : Nat) * 24 * 60 * 60 : Nat)) e) ∧
      (∀ e : DirEntry, e ∈ fs' ↔
        e ∈ ([⟨"old".toList, true, 0⟩, ⟨"old.zip".toList, false, 5⟩,
          ⟨"fresh".toList, true, 2000000000⟩, ⟨"notes.txt".toList, false, 0⟩] :
            List DirEntry) ∧
        ¬staleDir (1000000000 - ((7 : Nat) * 24 * 60 * 60 : Nat)) e ∧
        ¬∃ d ∈ ([⟨"old".toList, true, 0⟩, ⟨"old.zip".toList, false, 5⟩,
          ⟨"fresh".toList, true, 2000000000⟩, ⟨"notes.txt".toList, false, 0⟩] :
            List DirEntry),
          staleDir (1000000000 - ((7 : Nat) * 24 * 60 * 60 : Nat)) d ∧
            e.name = d.name ++ zipExt) :=
  ⟨by decide, by decide,
    c3_cleanup_spec
      [⟨"old".toList, true, 0⟩, ⟨"old.zip".toList, false, 5⟩,
        ⟨"fresh".toList, true, 2000000000⟩, ⟨"notes.txt".toList, false, 0⟩]
      1000000000 7 (by decide) (by decide)⟩

/-! ## Claim C2 -/

/-- C2 as stated is false on the code: `cleanup_old_conversions` wraps
no per-entry exception handler, so the first deletion failure raises
out of the loop.  With two stale directories `a` and `b` where deleting
`a` fails, the sweep raises instead of returning a removed-list
omitting `a`: `b` is neither evaluated nor deleted and no aggregated
error report is produced. -/
theorem c2_counterexample :
    cleanup_old_conversions (fun n => n == "a".toList)
      [⟨"a".toList, true, 0⟩, ⟨"b".toList, true, 0⟩] 1000000000 7 =
      Except.error "a".toList := by
  rfl

/-- C2 (amended): a deletion failure on a stale conversion aborts the
whole sweep at that entry — the exception propagates to the caller, no
removed-list is returned, and the remaining entries (here arbitrary
`fs`) are not evaluated or deleted. -/
theorem c2_failure_aborts_sweep (removeFails : List Char → Bool) (e : DirEntry)
    (fs : List DirEntry) (now : Int) (days_to_keep : Nat)
    (hdir : e.isDir = true)
    (hmt : e.mtime < now - (days_to_keep * 24 * 60 * 60 : Nat))
    (hfail : removeFails e.name = true) :
    cleanup_old_conversions removeFails (e :: fs) now days_to_keep =
      Except.error e.name := by
  unfold cleanup_old_conversions
  rw [List.map_cons]
  have hfind : findEntry (e :: fs) e.name = some e := by
    unfold findEntry
    rw [List.find?_cons_of_pos _ (by simp)]
  exact sweepLoop_cons_stale_fail removeFails _ _ _ _ _ _ hfind hdir hmt hfail

theorem c2_amended_witness :
    (⟨"a".toList, true, 0⟩ : DirEntry).isDir = true ∧
    (⟨"a".toList, true, 0⟩ : DirEntry).mtime <
      1000000000 - ((7 : Nat) * 24 * 60 * 60 : Nat) ∧
    (fun n => n == "a".toList) (⟨"a".toList, true, 0⟩ : DirEntry).name = true ∧
    cleanup_old_conversions (fun n => n == "a".toList)
      [⟨"a".toList, true, 0⟩, ⟨"b".toList, true, 0⟩] 1000000000 7 =
      Except.error "a".toList :=
  ⟨by decide, by decide, by decide,
    c2_failure_aborts_sweep (fun n => n == "a".toList) ⟨"a".toList, true, 0⟩
      [⟨"b".toList, true, 0⟩] 1000000000 7 (by decide) (by decide) (by decide)⟩

end MarkForger
